import Mathlib

/-!
Verification of the layered graph-layout engine of `rs_graph_layout`
(`src/graph_layout.rs`).  The Rust code is shallowly embedded: the
`GraphLayout` struct's mutable state becomes the `GState` record, every
method becomes an executable Lean function of the same name, and every
Rust panic site (`unwrap`, out-of-bounds indexing, failed `assert!`,
`usize` underflow) is modelled by returning `none`.  The external
`petgraph` library is modelled by its contract: `from_edges` creates the
nodes `0 ..= max index`, `toposort` returns a topological order and fails
exactly on cyclic graphs (here realised by Kahn's algorithm with a
smallest-identifier tie-break; every theorem below is insensitive to
which valid topological order is produced), and the neighbor iterators
return the edge endpoints (all uses in the source are order-insensitive:
max, min, sums and counts).  The gap slider's `f64` mean comparison
`mean < i - 0.5` is embedded as the exact integer comparison
`2*sum < (2*i - 1)*k`; for the index magnitudes reachable here the two
agree, since `i - 0.5` is exactly representable and the quotient is
computed with error far below `1/(2k)`.
-/

namespace RSGL

/-- Finite-map model of the `HashMap<NodeIndex, usize>` fields. -/
def NMap : Type := Nat → Option Nat

/-- `HashMap::insert`. -/
def mupd (m : NMap) (k v : Nat) : NMap := fun x => if x = k then some v else m x

/-- Model of `petgraph::StableDiGraph` as produced by `from_edges`:
the node set is `0 ..= max endpoint` (i.e. `List.range n`) plus the edge list. -/
structure DiGraph where
  n : Nat
  edges : List (Nat × Nat)

/-- `StableDiGraph::from_edges`: nodes are inserted automatically to match the
edges, so the node count is one more than the largest endpoint mentioned. -/
def fromEdges (es : List (Nat × Nat)) : DiGraph :=
  { n := es.foldl (fun m e => max m (max e.1 e.2 + 1)) 0, edges := es }

/-- `neighbors_directed(v, Direction::Outgoing)`. -/
def successors (g : DiGraph) (v : Nat) : List Nat :=
  (g.edges.filter (fun e => e.1 == v)).map (·.2)

/-- `neighbors_directed(v, Direction::Incoming)`. -/
def predecessors (g : DiGraph) (v : Nat) : List Nat :=
  (g.edges.filter (fun e => e.2 == v)).map (·.1)

/-- `neighbors_undirected(v)`: each incident edge contributes its other endpoint. -/
def neighbors_undirected (g : DiGraph) (v : Nat) : List Nat :=
  successors g v ++ predecessors g v

/-- The two `petgraph::Direction` values. -/
inductive Dir where
  | incoming
  | outgoing

/-- `neighbors_directed` dispatching on the direction. -/
def neighbors_directed (g : DiGraph) (v : Nat) : Dir → List Nat
  | .incoming => predecessors g v
  | .outgoing => successors g v

/-- A vertex of `rem` is ready to be emitted by Kahn's algorithm when no edge
brings it a predecessor that is still unemitted. -/
def noWaitingPred (es : List (Nat × Nat)) (rem : List Nat) (v : Nat) : Bool :=
  es.all (fun e => !(e.2 == v) || !(rem.contains e.1))

/-- Kahn's algorithm: repeatedly emit the first remaining vertex all of whose
predecessors have been emitted.  Returns the emitted order (reversed
accumulator) and the leftover vertices (nonempty exactly on a cycle). -/
def kahnAux (es : List (Nat × Nat)) : Nat → List Nat → List Nat → (List Nat × List Nat)
  | 0, acc, rem => (acc.reverse, rem)
  | fuel + 1, acc, rem =>
    match rem.find? (noWaitingPred es rem) with
    | none => (acc.reverse, rem)
    | some v => kahnAux es fuel (v :: acc) (rem.erase v)

/-- Model of `petgraph::algo::toposort(&graph, None)`: a topological order of
all nodes on acyclic input, `Err` (here `none`) when a cycle prevents
completion.  The source always calls `.unwrap()` on the result, so a cycle is
a panic. -/
def toposortModel (g : DiGraph) : Option (List Nat) :=
  let p := kahnAux g.edges g.n [] (List.range g.n)
  if p.2.isEmpty then some p.1 else none

/-- `usize::abs_diff`. -/
def ndist (a b : Nat) : Nat := (a - b) + (b - a)

/-- The derived `Ord` on Rust's `Option<usize>` (`None` below every `Some`),
used by `reduce_crossings` to compare `get_index_of_node` results. -/
def optIdxLt : Option Nat → Option Nat → Bool
  | none, some _ => true
  | some a, some b => a < b
  | _, _ => false

/-- The mutable state of a `GraphLayout`: the grid of levels, `level_of_node`
and `index_of_node`. -/
structure GState where
  layers : List (List (Option Nat))
  level_of : NMap
  index_of : NMap

/-- The freshly constructed state (`GraphLayout::new`). -/
def initState : GState := { layers := [], level_of := fun _ => none, index_of := fun _ => none }

/-- `add_node_to_level`: push into the row if it exists; otherwise the source
pushes `node_level + 1` further empty rows (regardless of the current length)
and then pushes into the row. -/
def add_node_to_level (st : GState) (node node_level : Nat) : GState :=
  if node_level < st.layers.length then
    { st with layers := st.layers.set node_level (st.layers.getD node_level [] ++ [some node]) }
  else
    let grown := st.layers ++ List.replicate (node_level + 1) []
    { st with layers := grown.set node_level (grown.getD node_level [] ++ [some node]) }

/-- One step of `arrange_nodes_in_levels`: the processed vertex gets
`max(level of already-levelled predecessors, default 0) + 1`. -/
def arrange_node (g : DiGraph) (st : GState) (v : Nat) : GState :=
  let node_level := (((predecessors g v).filterMap st.level_of).max?).getD 0 + 1
  let st' := { st with level_of := mupd st.level_of v node_level }
  add_node_to_level st' v node_level

/-- `arrange_nodes_in_levels`, processing the vertices in the given
topological order. -/
def arrange_nodes_in_levels (g : DiGraph) (st : GState) (ord : List Nat) : GState :=
  ord.foldl (arrange_node g) st

/-- `move_node_in_level`: relax one vertex up (toward its successors) or down
(below its predecessors), keeping grid and `level_of` in step. -/
def move_node_in_level (g : DiGraph) (st : GState) (node : Nat) (dir : Dir) : Option GState :=
  let nbrLvls := (neighbors_directed g node dir).filterMap st.level_of
  let newL := match dir with
    | .incoming => (nbrLvls.max?).getD 0 + 1
    | .outgoing => ((nbrLvls.min?).getD st.layers.length) - 1
  match st.level_of node with
  | none => none
  | some cur =>
    if cur = newL then some st
    else
      match st.layers[cur]? with
      | none => none
      | some row =>
        let st1 := { st with layers := st.layers.set cur (row.filter (fun s => !(s == some node))) }
        let st2 := add_node_to_level st1 node newL
        some { st2 with level_of := mupd st2.level_of node newL }

/-- The level-centering loop of `align_nodes`.  Note: the Rust code first
drains the old row into `padding` and only then evaluates
`(max_level_length - level.len()) / 2` for the trailing padding, at which
point `level.len()` is `0`; the appended padding is therefore
`max_level_length / 2` empties, independent of the row. -/
def center_levels (st : GState) : Option GState :=
  match (st.layers.map List.length).max? with
  | none => none
  | some max_level_length =>
    some { st with layers := st.layers.map (fun row =>
      (List.replicate ((max_level_length - row.length) / 2 + 1) none ++ row)
        ++ List.replicate (max_level_length / 2) none) }

/-- Record the column of every occupied slot of one row into `index_of`. -/
def fill_index_row (m : NMap) (row : List (Option Nat)) : NMap :=
  row.enum.foldl (fun m p => match p.2 with | some v => mupd m v p.1 | none => m) m

/-- The "fill index_of_node" loop of `align_nodes`. -/
def fill_index (st : GState) : GState :=
  { st with index_of := st.layers.foldl fill_index_row st.index_of }

/-- Keep only the direct successors whose level is within distance `< 2` of
`L`; the source `unwrap`s each level, so a missing level is a panic. -/
def filter_close_lvl (st : GState) (L : Nat) : List Nat → Option (List Nat)
  | [] => some []
  | s :: rest =>
    match st.level_of s with
    | none => none
    | some l =>
      match filter_close_lvl st L rest with
      | none => none
      | some r => some (if ndist l L < 2 then s :: r else r)

/-- `reduce_crossings`: count, over all pairs of a successor of `node` and a
successor of `left`, how often the left successor sits right of the right
one (and vice versa), and swap the two vertices in their row when the
swapped count is strictly smaller. -/
def reduce_crossings (g : DiGraph) (st : GState) (node left : Nat) (level_index : Nat) :
    Option GState :=
  match filter_close_lvl st level_index (successors g node) with
  | none => none
  | some succs =>
  match filter_close_lvl st level_index (successors g left) with
  | none => none
  | some left_succs =>
  let cross_count :=
    (succs.map (fun s =>
      (left_succs.filter (fun ls => optIdxLt (st.index_of s) (st.index_of ls))).length)).sum
  let cross_count_swap :=
    (succs.map (fun s =>
      (left_succs.filter (fun ls => optIdxLt (st.index_of ls) (st.index_of s))).length)).sum
  if cross_count_swap < cross_count then
    match st.layers[level_index]? with
    | none => none
    | some row =>
    match st.index_of node, st.index_of left with
    | some node_index, some left_index =>
      if node_index < row.length && left_index < row.length then
        let row' := (row.set node_index (some left)).set left_index (some node)
        some { st with
          layers := st.layers.set level_index row',
          index_of := mupd (mupd st.index_of left node_index) node left_index }
      else none
    | _, _ => none
  else some st

/-- Handling of one snapshot slot inside the crossing-reduction sweep: the
`left` partner is looked up in the snapshot row at the current
`index_of[node] - 1` (a `usize` subtraction, panicking at 0, then a
bounds-checked index into the snapshot row). -/
def crossing_slot (g : DiGraph) (st : GState) (level_index : Nat)
    (snapRow : List (Option Nat)) (slot : Option Nat) : Option GState :=
  match slot with
  | none => some st
  | some node =>
    match st.index_of node with
    | none => none
    | some i =>
      if i = 0 then none
      else
        match snapRow[i - 1]? with
        | none => none
        | some none => some st
        | some (some left) => reduce_crossings g st node left level_index

/-- One snapshot row of the crossing-reduction sweep (`iter().skip(1)`). -/
def crossing_row (g : DiGraph) (st : GState) (level_index : Nat)
    (snapRow : List (Option Nat)) : Option GState :=
  (snapRow.drop 1).foldlM (fun s slot => crossing_slot g s level_index snapRow slot) st

/-- One full crossing-reduction sweep over a clone of the current grid. -/
def crossing_sweep (g : DiGraph) (st : GState) : Option GState :=
  st.layers.enum.foldlM (fun s p => crossing_row g s p.1 p.2) st

/-- `swap_with_none_neighbors`.  Returns the state and the value the Rust
function returns (`true` when no move was made).  Panic sites modelled by
`none`: the `position().unwrap()`, the `assert_ne!(node_index, 0)`, and the
write `level[swap_index]` when `swap_index` equals the row length (the
append guard of the source is `swap_index > level.len()`, which never
fires, so moving right from the last slot indexes one past the end). -/
def swap_with_none_neighbors (g : DiGraph) (st : GState) (node : Nat) (level_index : Nat) :
    Option (GState × Bool) :=
  match st.layers[level_index]? with
  | none => none
  | some row =>
  match row.findIdx? (fun s => s == some node) with
  | none => none
  | some node_index =>
  if node_index = 0 then none
  else
  let left := row.getD (node_index - 1) none
  let right := if row.length - 1 ≤ node_index then none else row.getD (node_index + 1) none
  if left.isSome && right.isSome then some (st, true)
  else
  match filter_close_lvl st level_index (neighbors_undirected g node) with
  | none => none
  | some nbrs =>
  if nbrs.isEmpty then some (st, true)
  else
  match nbrs.mapM st.index_of with
  | none => none
  | some idxs =>
  let twiceSum := 2 * idxs.sum
  let k := idxs.length
  let swapTo : Option Nat :=
    if twiceSum < (2 * node_index - 1) * k && left.isNone then some (node_index - 1)
    else if (2 * node_index + 1) * k < twiceSum && right.isNone then some (node_index + 1)
    else none
  match swapTo with
  | none => some (st, true)
  | some swap_index =>
    let row1 := row.set node_index none
    if row1.length < swap_index then
      some ({ st with
        layers := st.layers.set level_index (row1 ++ [some node]),
        index_of := mupd st.index_of node swap_index }, false)
    else if swap_index < row1.length then
      some ({ st with
        layers := st.layers.set level_index (row1.set swap_index (some node)),
        index_of := mupd st.index_of node swap_index }, false)
    else none

/-- The slot loop of the gap slider: visit every occupied slot of the
snapshot row, clearing the `did_not_swap` flag whenever a move is made. -/
def slider_slots (g : DiGraph) (level_index : Nat) :
    List (Option Nat) → GState → Bool → Option (GState × Bool)
  | [], st, flag => some (st, flag)
  | none :: rest, st, flag => slider_slots g level_index rest st flag
  | some node :: rest, st, flag =>
    match swap_with_none_neighbors g st node level_index with
    | none => none
    | some (st', r) => slider_slots g level_index rest st' (if r then flag else false)

/-- The `for _ in 0..level.len()` repeat loop around the slot loop; it resets
`did_not_swap` to `true` each iteration and breaks early once a full pass
made no move. -/
def slider_repeat (g : DiGraph) (level_index : Nat) (snapRow : List (Option Nat)) :
    Nat → GState → Bool → Option (GState × Bool)
  | 0, st, flag => some (st, flag)
  | fuel + 1, st, _ =>
    match slider_slots g level_index snapRow st true with
    | none => none
    | some (st', flag') =>
      if flag' then some (st', flag')
      else slider_repeat g level_index snapRow fuel st' flag'

/-- One slider sweep over a clone of the grid; `did_not_swap` threads across
rows (a row of length 0 leaves it unchanged). -/
def slider_sweep (g : DiGraph) (st : GState) (flag : Bool) : Option (GState × Bool) :=
  st.layers.enum.foldlM
    (fun (p : GState × Bool) q => slider_repeat g q.1 q.2 q.2.length p.1 p.2)
    (st, flag)

/-- The `for _ in 0..2` slider phase with its early break. -/
def slider_phase (g : DiGraph) (st : GState) : Option GState :=
  match slider_sweep g st true with
  | none => none
  | some (st1, f1) =>
    if f1 then some st1
    else
      match slider_sweep g st1 true with
      | none => none
      | some (st2, _) => some st2

/-- One round of the outer refinement loop: two crossing sweeps, then the
slider phase. -/
def refine_round (g : DiGraph) (st : GState) : Option GState :=
  match crossing_sweep g st with
  | none => none
  | some st1 =>
  match crossing_sweep g st1 with
  | none => none
  | some st2 => slider_phase g st2

/-- The `for _ in 0..10` outer refinement loop. -/
def refine_loop (g : DiGraph) : Nat → GState → Option GState
  | 0, st => some st
  | k + 1, st =>
    match refine_round g st with
    | none => none
    | some st' => refine_loop g k st'

/-- One vertex of the `global_tasks_in_first_row` post-pass: a source not on
level 0 is removed from its row at the (possibly stale) `index_of` position
(`Vec::remove`, panicking when out of bounds) and appended to row 0. -/
def roots_step (g : DiGraph) (st : GState) (node : Nat) : Option GState :=
  match st.level_of node with
  | none => none
  | some node_level =>
    if node_level ≠ 0 ∧ (predecessors g node).length = 0 then
      match st.index_of node with
      | none => none
      | some i =>
      match st.layers[node_level]? with
      | none => none
      | some row =>
        if i < row.length then
          let st1 := { st with layers := st.layers.set node_level (row.eraseIdx i) }
          match st1.layers[0]? with
          | none => none
          | some row0 =>
            some { st1 with
              layers := st1.layers.set 0 (row0 ++ [some node]),
              level_of := mupd st1.level_of node 0 }
        else none
    else some st

/-- The whole `global_tasks_in_first_row` post-pass, including the final
re-indexing of row 0 (and only row 0). -/
def global_tasks_pass (g : DiGraph) (st : GState) : Option GState :=
  match (List.range g.n).foldlM (roots_step g) st with
  | none => none
  | some st' =>
    match st'.layers[0]? with
    | none => none
    | some row0 => some { st' with index_of := fill_index_row st'.index_of row0 }

/-- `align_nodes`: the full per-component pipeline. -/
def align_nodes (g : DiGraph) (global_tasks_in_first_row : Bool) : Option GState :=
  if g.n = 0 then some initState
  else
    match toposortModel g with
    | none => none
    | some ord =>
      let st := arrange_nodes_in_levels g initState ord
      match (List.range g.n).reverse.foldlM (fun s v => move_node_in_level g s v .outgoing) st with
      | none => none
      | some stB =>
      match (List.range g.n).foldlM (fun s v => move_node_in_level g s v .incoming) stB with
      | none => none
      | some stC =>
      match center_levels stC with
      | none => none
      | some stK =>
      let stF := fill_index stK
      match refine_loop g 10 stF with
      | none => none
      | some stR =>
        if global_tasks_in_first_row then global_tasks_pass g stR else some stR

/-- Number of occupied slots of a row. -/
def count_some (row : List (Option Nat)) : Nat := (row.filter (fun s => s.isSome)).length

/-- `get_width`: maximum over the rows of the occupied-slot count. -/
def get_width (st : GState) : Nat := ((st.layers.map count_some).max?).getD 0

/-- `get_nums_of_level`: the number of rows of the grid, empty rows included. -/
def get_nums_of_level (st : GState) : Nat := st.layers.length

/-- `HashMap::insert` on the emitted position map, modelled as an association
list with replacement. -/
def hm_insert : List (Nat × Int × Int) → Nat → Int × Int → List (Nat × Int × Int)
  | [], k, v => [(k, v)]
  | (k', v') :: rest, k, v =>
    if k' = k then (k, v) :: rest else (k', v') :: hm_insert rest k v

/-- `build_layout`: emit `(x, y)` for every occupied slot, plus width and
height.  The borrow of `layers[0]` panics when the grid is empty. -/
def build_layout (st : GState) (node_separation : Int) :
    Option (List (Nat × Int × Int) × Nat × Nat) :=
  match st.layers[0]? with
  | none => none
  | some row0 =>
    let offset : Int := if row0.all (fun s => s.isNone) then 1 else 0
    let layout := st.layers.enum.foldl (fun acc p =>
      p.2.enum.foldl (fun acc q =>
        match q.2 with
        | some node =>
          hm_insert acc node
            ((q.1 : Int) * node_separation, (-(p.1 : Int) + offset) * node_separation)
        | none => acc) acc) []
    some (layout, get_width st, get_nums_of_level st)

/-- The stack traversal of `into_weakly_connected_components` for one seed:
pop, skip if visited, otherwise record the outgoing edges and push the
successors.  The fuel is an upper bound on the number of pops; the Rust loop
performs at most `1 + |edges|` pushes per seed, so the fuel is never
exhausted. -/
def wcc_expand (g : DiGraph) :
    Nat → List Nat → List Nat → List (Nat × Nat) → Option (List Nat × List (Nat × Nat))
  | 0, visited, stack, acc => if stack.isEmpty then some (visited, acc) else none
  | fuel + 1, visited, stack, acc =>
    match stack with
    | [] => some (visited, acc)
    | source :: rest =>
      if visited.contains source then wcc_expand g fuel visited rest acc
      else
        let succ := successors g source
        wcc_expand g fuel (source :: visited) (succ.reverse ++ rest)
          (acc ++ succ.map (fun s => (source, s)))

/-- `into_weakly_connected_components`: seed a traversal from every vertex in
topological order; keep a subgraph for every seed that collected at least one
edge, rebuilt via `from_edges`. -/
def into_weakly_connected_components (g : DiGraph) : Option (List DiGraph) :=
  match toposortModel g with
  | none => none
  | some ord =>
    match ord.foldlM (fun (p : List Nat × List DiGraph) identifier =>
      match wcc_expand g (g.edges.length + 2) p.1 [identifier] [] with
      | none => none
      | some (visited', subEdges) =>
        some (visited',
          if 0 < subEdges.length then p.2 ++ [fromEdges subEdges] else p.2)) ([], []) with
    | none => none
    | some p => some p.2

/-- `create_layers`: split into components, align each, emit each layout.
Any panic anywhere aborts the whole call with no partial result. -/
def create_layers (edges : List (Nat × Nat)) (node_size : Int)
    (global_tasks_in_first_row : Bool) :
    Option (List (List (Nat × Int × Int) × Nat × Nat)) :=
  let graph := fromEdges edges
  match into_weakly_connected_components graph with
  | none => none
  | some subs =>
    match subs.mapM (fun sg => align_nodes sg global_tasks_in_first_row) with
    | none => none
    | some states => states.mapM (fun st => build_layout st (node_size * 4))



/-! ## Specification-side counting functions for the crossing reducer

The claim about `reduce_crossings` speaks of the adjacent pair `a` (left) and
`b` (right) and counts successor pairs `(s_a, s_b)` by the order of their
columns; the successors are restricted to levels within distance `< 2` of the
pair's level.  `closeSuccs` is that restriction as a total filter, and
`specC` / `specC'` are the two pair counts named `C` and `C'` by the claim. -/

/-- The successors of `x` whose (assigned) level is within distance `< 2` of `L`. -/
def closeSuccs (g : DiGraph) (st : GState) (L : Nat) (x : Nat) : List Nat :=
  (successors g x).filter (fun s =>
    match st.level_of s with
    | some l => decide (ndist l L < 2)
    | none => false)

/-- The claim's `C`: pairs `(s_a, s_b)` of close successors of `a` and `b`
with `index_of[s_b] > index_of[s_a]`. -/
def specC (g : DiGraph) (st : GState) (L a b : Nat) : Nat :=
  ((closeSuccs g st L b).map (fun sb =>
    ((closeSuccs g st L a).filter (fun sa => optIdxLt (st.index_of sa) (st.index_of sb))).length)).sum

/-- The claim's `C'`: pairs `(s_a, s_b)` with `index_of[s_b] < index_of[s_a]`. -/
def specC' (g : DiGraph) (st : GState) (L a b : Nat) : Nat :=
  ((closeSuccs g st L b).map (fun sb =>
    ((closeSuccs g st L a).filter (fun sa => optIdxLt (st.index_of sb) (st.index_of sa))).length)).sum

/-- `filter_close_lvl` succeeds exactly with the total filter `closeSuccs` uses. -/
theorem filter_close_lvl_eq (st : GState) (L : Nat) :
    ∀ xs ys, filter_close_lvl st L xs = some ys →
      ys = xs.filter (fun s =>
        match st.level_of s with
        | some l => decide (ndist l L < 2)
        | none => false) := by
  intro xs
  induction xs with
  | nil =>
    intro ys h
    simp only [filter_close_lvl, Option.some.injEq] at h
    subst h; rfl
  | cons x rest ih =>
    intro ys h
    simp only [filter_close_lvl] at h
    cases hx : st.level_of x with
    | none => rw [hx] at h; cases h
    | some l =>
      rw [hx] at h
      cases hr : filter_close_lvl st L rest with
      | none => rw [hr] at h; cases h
      | some r =>
        rw [hr] at h
        injection h with h
        subst h
        rw [List.filter_cons]
        by_cases hd : ndist l L < 2
        · simp [hx, hd, ← ih r hr]
        · simp [hx, hd, ← ih r hr]

/-! ## Claim C5: the crossing reducer's swap condition -/

/-- Graph for the C5 scenarios: level-0 vertices `0, 1` with successors `2`
resp. `3` on level 1. -/
def gC5 : DiGraph := fromEdges [(0, 2), (1, 3)]

/-- State for the C5 counterexample: `0` at column 0 and `1` at column 1 of
level 0, their successors `2` (column 0) and `3` (column 1) on level 1. -/
def stC5 : GState :=
  { layers := [[some 0, some 1], [some 2, some 3]],
    level_of := fun v => if v < 2 then some 0 else if v < 4 then some 1 else none,
    index_of := fun v => if v < 4 then some (v % 2) else none }

/-- State for the C5 witness: as `stC5` but with the successors' columns
exchanged, so that swapping `0` and `1` reduces the crossing count. -/
def stC5w : GState :=
  { layers := [[some 0, some 1], [some 2, some 3]],
    level_of := fun v => if v < 2 then some 0 else if v < 4 then some 1 else none,
    index_of := fun v => if v < 2 then some (v % 2) else if v < 4 then some (1 - v % 2) else none }

/-- C5, counterexample: with `a = 0` at column 0 and `b = 1` at column 1, the
claim's counts are `C = 1` and `C' = 0`, so the claim (`swap exactly when
C' < C`) demands a swap; `reduce_crossings` leaves the state unchanged.  The
source swaps when `C < C'`, the opposite comparison. -/
theorem c5_counterexample :
    specC gC5 stC5 0 0 1 = 1 ∧ specC' gC5 stC5 0 0 1 = 0 ∧
      reduce_crossings gC5 stC5 1 0 0 = some stC5 :=
  ⟨rfl, rfl, rfl⟩

/-- C5 (amended): `reduce_crossings(node, left, L)` with `left = a` at column
`i` and `node = b` at column `i + 1` swaps the pair exactly when `C < C'`,
where `C` counts the close-successor pairs `(s_a, s_b)` with
`index_of[s_b] > index_of[s_a]` and `C'` those with
`index_of[s_b] < index_of[s_a]` (the comparison is the reverse of the one
the claim states).  On a swap the two vertices exchange their slots and
`index_of` entries; otherwise the state is returned unchanged. -/
theorem c5_swap_rule (g : DiGraph) (st : GState) (node left L : Nat) (st' : GState)
    (h : reduce_crossings g st node left L = some st') :
    (specC' g st L left node ≤ specC g st L left node → st' = st) ∧
    (specC g st L left node < specC' g st L left node →
      ∃ row ni li, st.layers[L]? = some row ∧
        st.index_of node = some ni ∧ st.index_of left = some li ∧
        ni < row.length ∧ li < row.length ∧
        st'.layers = st.layers.set L ((row.set ni (some left)).set li (some node)) ∧
        st'.index_of = mupd (mupd st.index_of left ni) node li ∧
        st'.level_of = st.level_of) := by
  cases hb : filter_close_lvl st L (successors g node) with
  | none => simp only [reduce_crossings, hb] at h; cases h
  | some succs =>
    cases ha : filter_close_lvl st L (successors g left) with
    | none => simp only [reduce_crossings, hb, ha] at h; cases h
    | some left_succs =>
      have hbe := filter_close_lvl_eq st L _ _ hb
      have hae := filter_close_lvl_eq st L _ _ ha
      subst hbe hae
      simp only [reduce_crossings, hb, ha] at h
      split at h
      case isTrue hlt =>
        have hlt' : specC g st L left node < specC' g st L left node := hlt
        refine ⟨fun hle => absurd hlt' (by omega), fun _ => ?_⟩
        cases hrow : st.layers[L]? with
        | none => rw [hrow] at h; cases h
        | some row =>
          rw [hrow] at h
          cases hni : st.index_of node with
          | none => rw [hni] at h; cases h
          | some ni =>
            cases hli : st.index_of left with
            | none => rw [hni, hli] at h; cases h
            | some li =>
              rw [hni, hli] at h
              simp only [] at h
              by_cases hb2 : ni < row.length ∧ li < row.length
              · rw [if_pos (by simp [hb2.1, hb2.2])] at h
                injection h with h
                subst h
                exact ⟨row, ni, li, rfl, rfl, rfl, hb2.1, hb2.2, rfl, rfl, rfl⟩
              · rw [if_neg (by simpa using hb2)] at h; cases h
      case isFalse hlt =>
        have hlt' : ¬ specC g st L left node < specC' g st L left node := hlt
        injection h with h
        exact ⟨fun _ => h.symm, fun hc => absurd hc hlt'⟩

/-- C5, witness for the amended rule: on `stC5w` the counts are `C = 0`,
`C' = 1`, and the reducer indeed swaps columns 0 and 1 of level 0. -/
theorem c5_swap_rule_witness :
    specC gC5 stC5w 0 0 1 < specC' gC5 stC5w 0 0 1 ∧
    ∃ row ni li, stC5w.layers[0]? = some row ∧
      stC5w.index_of 1 = some ni ∧ stC5w.index_of 0 = some li ∧
      ni < row.length ∧ li < row.length ∧
      ([[some 1, some 0], [some 2, some 3]] : List (List (Option Nat)))
        = stC5w.layers.set 0 ((row.set ni (some 0)).set li (some 1)) ∧
      mupd (mupd stC5w.index_of 0 1) 1 0 = mupd (mupd stC5w.index_of 0 ni) 1 li ∧
      stC5w.level_of = stC5w.level_of := by
  refine ⟨by decide, ?_⟩
  have h := (c5_swap_rule gC5 stC5w 1 0 0
      { stC5w with layers := [[some 1, some 0], [some 2, some 3]],
                   index_of := mupd (mupd stC5w.index_of 0 1) 1 0 } rfl).2 (by decide)
  obtain ⟨row, ni, li, h1, h2, h3, h4, h5, h6, h7, _⟩ := h
  exact ⟨row, ni, li, h1, h2, h3, h4, h5, h6, h7, rfl⟩

/-! ## Claim C6: the Centerer's padding -/

/-- State for the C6 counterexample: a level of length 2 over a level of
length 1, so `max_len = 2`. -/
def stC6 : GState :=
  { layers := [[some 0, some 1], [some 2]],
    level_of := fun _ => none, index_of := fun _ => none }

/-- C6, counterexample: with `max_len = 2` the claim demands both levels end
with length `max_len + 1 = 3`; the code produces lengths 4 and 3 (each row is
appended `max_len / 2` empties because the row is drained before its length
is re-read, and a row whose defect `max_len − ℓ` is odd ends one shorter than
an even-defect row). -/
theorem c6_counterexample :
    (stC6.layers.map List.length).max? = some 2 ∧
    (center_levels stC6).map (fun st => st.layers.map List.length) = some [4, 3] ∧
    ¬ (4 = 2 + 1) :=
  ⟨rfl, rfl, by omega⟩

/-- C6 (amended): the Centerer prepends `(max_len − ℓ) / 2 + 1` EMPTY slots
and appends `max_len / 2` EMPTY slots (the trailing count is evaluated after
the level has been drained, so it reads `ℓ` as 0); a level of length `ℓ` thus
ends with length `ℓ + (max_len − ℓ) / 2 + max_len / 2 + 1`, which equals
`max_len + 1` only when `max_len − ℓ` is even and `ℓ = max_len` bounds the
extra. -/
theorem c6_center_shape (st : GState) (maxLen : Nat) (st' : GState)
    (h1 : (st.layers.map List.length).max? = some maxLen)
    (h2 : center_levels st = some st') :
    ∀ (L : Nat) (row : List (Option Nat)), st.layers[L]? = some row →
      st'.layers[L]? = some (List.replicate ((maxLen - row.length) / 2 + 1) none
          ++ row ++ List.replicate (maxLen / 2) none) ∧
      ∀ row' : List (Option Nat), st'.layers[L]? = some row' →
        row'.length = row.length + (maxLen - row.length) / 2 + maxLen / 2 + 1 := by
  simp only [center_levels, h1] at h2
  injection h2 with h2
  subst h2
  intro L row hrow
  constructor
  · simp [List.getElem?_map, hrow, List.append_assoc]
  · intro row' hrow'
    simp only [List.getElem?_map, hrow, Option.map_some', Option.some.injEq] at hrow'
    subst hrow'
    simp [List.length_append, List.length_replicate]
    omega

/-- C6, witness: the amended shape evaluated on `stC6`. -/
theorem c6_center_shape_witness :
    (stC6.layers.map List.length).max? = some 2 ∧
    center_levels stC6 = some { stC6 with layers := [[none, some 0, some 1, none], [none, some 2, none]] } ∧
    ([[none, some 0, some 1, none], [none, some 2, none]] : List (List (Option Nat)))[0]?
      = some (List.replicate ((2 - 2) / 2 + 1) none ++ [some 0, some 1] ++ List.replicate (2 / 2) none) := by
  refine ⟨rfl, rfl, ?_⟩
  exact (c6_center_shape stC6 2
    { stC6 with layers := [[none, some 0, some 1, none], [none, some 2, none]] }
    rfl rfl 0 [some 0, some 1] rfl).1

/-! ## Claim C7: the Gap slider's rightward move at the end of a level -/

/-- Graph for the C7 scenario: one edge `0 → 1`. -/
def gC7 : DiGraph := fromEdges [(0, 1)]

/-- State for the C7 scenario: `0` sits in the last slot (column 1) of a
level of length 2, and its only neighbor `1` sits at column 3 of the longer
next level, so the mean neighbor column 3 exceeds `1 + 0.5`. -/
def stC7 : GState :=
  { layers := [[none, some 0], [none, none, none, some 1]],
    level_of := fun v => if v = 0 then some 0 else if v = 1 then some 1 else none,
    index_of := fun v => if v = 0 then some 1 else if v = 1 then some 3 else none }

/-- C7: at `stC7` the move-right conditions of the claim hold (`mean = 3 >
1.5`, right neighbor absent, `i + 1 = 2 ≥ len = 2`), but instead of appending
a new slot the source evaluates `level[swap_index]` with `swap_index` equal
to the length (its append guard is `swap_index > level.len()`, which cannot
fire), i.e. it panics with an out-of-bounds index. -/
theorem c7_append_panics :
    (stC7.layers.getD 0 []).length = 2 ∧
    (stC7.layers.getD 0 []).findIdx? (fun s => s == some 0) = some 1 ∧
    (2 * 1 + 1) * 1 < 2 * 3 ∧
    swap_with_none_neighbors gC7 stC7 0 0 = none :=
  ⟨rfl, rfl, by omega, rfl⟩

/-! ## Claim C8: the Gap slider on a vertex at column 0 -/

/-- Graph for the C8 scenario: one edge `0 → 1`. -/
def gC8 : DiGraph := fromEdges [(0, 1)]

/-- State for the C8 scenario: vertex `0` occupies column 0 of its level. -/
def stC8 : GState :=
  { layers := [[some 0, none, some 1]],
    level_of := fun v => if v ≤ 1 then some 0 else none,
    index_of := fun v => if v = 0 then some 0 else if v = 1 then some 2 else none }

/-- C8, counterexample: a vertex inspected at column 0 is not handled
gracefully: `swap_with_none_neighbors` fails its `assert_ne!(node_index, 0)`
(the `if node_index == 0 { None }` handling after the assert is dead code). -/
theorem c8_counterexample :
    (stC8.layers.getD 0 []).findIdx? (fun s => s == some 0) = some 0 ∧
    swap_with_none_neighbors gC8 stC8 0 0 = none :=
  ⟨rfl, rfl⟩

/-- C8 (amended): whenever the inspected vertex is found at column 0 of its
level, `swap_with_none_neighbors` panics by assertion; the left neighbor is
never treated as absent in that case. -/
theorem c8_assert_fails (g : DiGraph) (st : GState) (node L : Nat) (row : List (Option Nat))
    (hrow : st.layers[L]? = some row)
    (hidx : row.findIdx? (fun s => s == some node) = some 0) :
    swap_with_none_neighbors g st node L = none := by
  simp only [swap_with_none_neighbors, hrow, hidx]
  simp

/-- C8, witness: the assertion fires on the concrete state `stC8`. -/
theorem c8_assert_fails_witness :
    stC8.layers[0]? = some [some 0, none, some 1] ∧
    ([some 0, none, some 1] : List (Option Nat)).findIdx? (fun s => s == some 0) = some 0 ∧
    swap_with_none_neighbors gC8 stC8 0 0 = none :=
  ⟨rfl, rfl, c8_assert_fails gC8 stC8 0 0 [some 0, none, some 1] rfl rfl⟩

/-! ## Claim C3: the per-component position mappings are not a partition -/

/-- C3: on the weakly connected input `{(0,2), (1,2)}` the splitter follows
successors only, so it returns two components, and each rebuilt subgraph
recreates the nodes `0 ..= 2`; every one of the three vertices — in
particular vertex 2 — receives a position in both returned mappings. -/
theorem c3_duplicated_vertices :
    (create_layers [(0, 2), (1, 2)] 40 false).map (fun res => res.map (fun r => r.1.map Prod.fst))
      = some [[0, 1, 2], [0, 1, 2]] := by
  rfl

/-! ## Claim C4: the returned width and height -/

/-- C4, counterexample: for the single edge `0 → 1` the pipeline returns
height 5 (the grid keeps five rows: the always-empty row 0 and the two empty
rows over-pushed by `add_node_to_level`), while only 2 levels contain an
occupied slot. -/
theorem c4_counterexample :
    create_layers [(0, 1)] 40 false = some [([(0, 160, 0), (1, 160, -160)], 1, 5)] ∧
    (align_nodes (fromEdges [(0, 1)]) false).map
      (fun st => (st.layers.filter (fun row => row.any (fun s => s.isSome))).length) = some 2 ∧
    (5 : Nat) ≠ 2 := by
  refine ⟨by rfl, by rfl, by omega⟩

/-- C4 (amended): the returned width is the maximum over the levels of the
occupied-slot count, and the returned height is the total number of levels of
the grid — all-EMPTY levels included (the leveling phase routinely leaves
row 0 and over-pushed trailing rows empty). -/
theorem c4_dimensions (st : GState) (sep : Int) (lay : List (Nat × Int × Int)) (w h : Nat)
    (hb : build_layout st sep = some (lay, w, h)) :
    (∀ row ∈ st.layers, count_some row ≤ w) ∧
    (st.layers ≠ [] → ∃ row ∈ st.layers, count_some row = w) ∧
    h = st.layers.length := by
  simp only [build_layout] at hb
  cases h0 : st.layers[0]? with
  | none => rw [h0] at hb; cases hb
  | some row0 =>
    rw [h0] at hb
    simp only [Option.some.injEq, Prod.mk.injEq] at hb
    obtain ⟨-, hw, hh⟩ := hb
    subst hw hh
    refine ⟨?_, ?_, rfl⟩
    · intro row hrow
      unfold get_width
      cases hm : (st.layers.map count_some).max? with
      | none =>
        have h1 := List.max?_eq_none_iff.mp hm
        rw [List.map_eq_nil_iff] at h1
        rw [h1] at hrow
        cases hrow
      | some m =>
        obtain ⟨-, hle⟩ := List.max?_eq_some_iff'.mp hm
        simpa using hle (count_some row) (List.mem_map_of_mem count_some hrow)
    · intro hne
      unfold get_width
      cases hm : (st.layers.map count_some).max? with
      | none =>
        have h1 := List.max?_eq_none_iff.mp hm
        rw [List.map_eq_nil_iff] at h1
        exact absurd h1 hne
      | some m =>
        obtain ⟨hmem, -⟩ := List.max?_eq_some_iff'.mp hm
        obtain ⟨row, hrow, hevt⟩ := List.mem_map.mp hmem
        exact ⟨row, hrow, by simpa using hevt⟩

/-- C4, witness for the amended dimensions on a concrete two-row grid. -/
theorem c4_dimensions_witness :
    build_layout { layers := [[some 0], [none]], level_of := fun _ => none,
                   index_of := fun _ => none } 160 = some ([(0, 0, 0)], 1, 2) ∧
    (∀ row ∈ [[some 0], [none]], count_some row ≤ 1) ∧
    (∃ row ∈ ([[some 0], [none]] : List (List (Option Nat))), count_some row = 1) ∧
    (2 : Nat) = 2 := by
  have h := c4_dimensions
    { layers := [[some 0], [none]], level_of := fun _ => none, index_of := fun _ => none }
    160 [(0, 0, 0)] 1 2 rfl
  exact ⟨rfl, h.1, h.2.1 (by simp), rfl⟩

/-! ## Claim C9: the grid/`level_of`/`index_of` synchrony across mutations -/

/-- Graph for the C9 scenario: two sources `0, 1` with common successor `2`. -/
def gC9 : DiGraph := fromEdges [(0, 2), (1, 2)]

/-- State for the C9 scenario: a synchronized grid with the two sources on
level 1 (columns 1 and 3) and their successor on level 2. -/
def stC9 : GState :=
  { layers := [[none], [none, some 0, none, some 1], [none, some 2]],
    level_of := fun v => if v ≤ 1 then some 1 else if v = 2 then some 2 else none,
    index_of := fun v => if v = 0 then some 1 else if v = 1 then some 3 else
      if v = 2 then some 1 else none }

/-- C9: the roots-to-top pass breaks the invariant.  Moving source `0` shifts
source `1` one column left without updating `index_of[1]`; right after that
mutation `grid[level_of[1]][index_of[1]]` is out of bounds instead of `1`.
On a complete run the stale index is then fed to `Vec::remove`, which panics:
the whole call `create_layers [(0,3),(1,3),(2,3)]` with
`global_tasks_in_first_row = true` returns no layout, while the same input
with the flag off succeeds. -/
theorem c9_stale_index :
    (roots_step gC9 stC9 0).map
      (fun st => (st.level_of 1, st.index_of 1, (st.layers.getD 1 [])[3]?))
      = some (some 1, some 3, none) ∧
    create_layers [(0, 3), (1, 3), (2, 3)] 40 true = none ∧
    (create_layers [(0, 3), (1, 3), (2, 3)] 40 false).isSome = true := by
  refine ⟨by rfl, by rfl, by rfl⟩

/-! ## Claim C2: the Leveler's initial assignment -/

/-- `p` is a predecessor of `v` exactly when `(p, v)` is an edge. -/
theorem mem_predecessors (g : DiGraph) (p v : Nat) :
    p ∈ predecessors g v ↔ (p, v) ∈ g.edges := by
  simp only [predecessors, List.mem_map, List.mem_filter]
  constructor
  · rintro ⟨e, ⟨he, h2⟩, h1⟩
    have : e = (p, v) := by
      cases e; simp at h1 h2; simp [h1, h2]
    rw [← this]; exact he
  · intro he
    exact ⟨(p, v), ⟨he, by simp⟩, rfl⟩

/-- A list is topologically ordered for the edge list when, wherever an edge's
head occurs, its tail occurs strictly earlier. -/
def TopoOrdered (es : List (Nat × Nat)) (ord : List Nat) : Prop :=
  ∀ e ∈ es, ∀ l1 l2, ord = l1 ++ e.2 :: l2 → e.1 ∈ l1

/-- The level the Leveler's initial pass derives from the predecessors:
maximum of the already-assigned predecessor levels, defaulting to 0. -/
def maxPredLvl (g : DiGraph) (st : GState) (v : Nat) : Nat :=
  (((predecessors g v).filterMap st.level_of).max?).getD 0

/-- `add_node_to_level` leaves `level_of` untouched. -/
theorem add_node_to_level_level_of (st : GState) (node l : Nat) :
    (add_node_to_level st node l).level_of = st.level_of := by
  unfold add_node_to_level
  split <;> rfl

/-- `arrange_node` only updates `level_of` at the processed vertex. -/
theorem arrange_node_level_of (g : DiGraph) (st : GState) (v : Nat) :
    (arrange_node g st v).level_of = mupd st.level_of v (maxPredLvl g st v + 1) := by
  simp only [arrange_node, add_node_to_level_level_of]
  rfl

theorem mupd_self (m : NMap) (k v : Nat) : mupd m k v k = some v := by simp [mupd]

theorem mupd_other (m : NMap) (k v x : Nat) (h : x ≠ k) : mupd m k v x = m x := by
  simp [mupd, h]

/-- The defining equation of the Leveler's initial pass: processing a
topologically ordered, duplicate-free list, every processed vertex ends with
level `max(levels of its predecessors) + 1` (so 1 when it has none). -/
theorem arrange_levels_spec (g : DiGraph) :
    ∀ (todo done : List Nat) (st : GState),
      (done ++ todo).Nodup →
      TopoOrdered g.edges (done ++ todo) →
      (∀ v ∈ done, ∃ l, st.level_of v = some l ∧ l = maxPredLvl g st v + 1) →
      (∀ v, v ∉ done → st.level_of v = none) →
      ∀ v ∈ done ++ todo,
        ∃ l, (todo.foldl (arrange_node g) st).level_of v = some l ∧
          l = maxPredLvl g (todo.foldl (arrange_node g) st) v + 1 := by
  intro todo
  induction todo with
  | nil =>
    intro done st hnd hto hdone hun v hv
    simpa using hdone v (by simpa using hv)
  | cons hd tl ih =>
    intro done st hnd hto hdone hun v hv
    have hhd_not_done : hd ∉ done := by
      intro hmem
      have := List.disjoint_of_nodup_append hnd hmem
      simp at this
    have hpreds_done : ∀ p, (p, hd) ∈ g.edges → p ∈ done := by
      intro p hp
      exact hto (p, hd) hp done tl rfl
    have hstep_lvl := arrange_node_level_of g st hd
    -- the invariants for the extended prefix
    have hdone' : ∀ v ∈ done ++ [hd],
        ∃ l, (arrange_node g st hd).level_of v = some l ∧
          l = maxPredLvl g (arrange_node g st hd) v + 1 := by
      intro w hw
      have hcongr : ∀ u, (u, w) ∈ g.edges →
          (arrange_node g st hd).level_of u = st.level_of u := by
        intro u hu
        rw [hstep_lvl]
        rcases List.mem_append.mp hw with hwdone | hwhd
        · -- w was already processed; its predecessors cannot be the fresh hd
          refine mupd_other _ _ _ _ (fun hne => ?_)
          obtain ⟨d1, d2, hsplit⟩ := List.append_of_mem hwdone
          have hu_in : u ∈ done := by
            rw [hsplit]
            exact List.mem_append.mpr (Or.inl
              (hto (u, w) hu d1 (d2 ++ hd :: tl) (by rw [hsplit]; simp)))
          exact hhd_not_done (by rw [← hne]; exact hu_in)
        · -- w = hd; its predecessors lie in done, hence differ from hd
          simp at hwhd; subst hwhd
          refine mupd_other _ _ _ _ (fun hne => hhd_not_done ?_)
          rw [← hne]
          exact hpreds_done u hu
      have hmp : maxPredLvl g (arrange_node g st hd) w = maxPredLvl g st w := by
        unfold maxPredLvl
        congr 1
        congr 1
        apply List.filterMap_congr
        intro p hp
        exact hcongr p ((mem_predecessors g p w).mp hp)
      rcases List.mem_append.mp hw with hwdone | hwhd
      · obtain ⟨l, hl, heq⟩ := hdone w hwdone
        refine ⟨l, ?_, by rw [hmp]; exact heq⟩
        rw [hstep_lvl]
        rw [mupd_other _ _ _ _ (fun hne => hhd_not_done (by rw [← hne]; exact hwdone))]
        exact hl
      · simp at hwhd; subst hwhd
        exact ⟨maxPredLvl g st w + 1, by rw [hstep_lvl]; exact mupd_self _ _ _, by rw [hmp]⟩
    have hun' : ∀ v, v ∉ done ++ [hd] → (arrange_node g st hd).level_of v = none := by
      intro w hw
      simp only [List.mem_append, List.mem_singleton] at hw
      push_neg at hw
      rw [hstep_lvl, mupd_other _ _ _ _ hw.2]
      exact hun w hw.1
    have hassoc : (done ++ [hd]) ++ tl = done ++ hd :: tl := by simp
    have := ih (done ++ [hd]) (arrange_node g st hd)
      (by rw [hassoc]; exact hnd) (by rw [hassoc]; exact hto) hdone' hun'
    exact this v (by rw [hassoc]; exact hv)

/-- C2, counterexample: processing the topological order `[0, 1]` of the
one-edge graph `0 → 1`, the source vertex 0 — which has no predecessors — is
assigned level 1, not level 0. -/
theorem c2_counterexample :
    toposortModel (fromEdges [(0, 1)]) = some [0, 1] ∧
    predecessors (fromEdges [(0, 1)]) 0 = [] ∧
    (arrange_nodes_in_levels (fromEdges [(0, 1)]) initState [0, 1]).level_of 0 = some 1 ∧
    (some 1 : Option Nat) ≠ some 0 := by
  refine ⟨rfl, rfl, rfl, by simp⟩

/-- C2 (amended): in the Leveler's initial assignment, processing vertices in
a topological order, every vertex is assigned one more than the maximum level
of its predecessors, with the empty maximum reading as 0 — so a vertex with
no predecessors is assigned level 1, and no vertex ever starts below
level 1. -/
theorem c2_initial_levels (g : DiGraph) (ord : List Nat)
    (hnd : ord.Nodup) (hto : TopoOrdered g.edges ord) :
    ∀ v ∈ ord,
      ∃ l, (arrange_nodes_in_levels g initState ord).level_of v = some l ∧
        l = maxPredLvl g (arrange_nodes_in_levels g initState ord) v + 1 ∧
        1 ≤ l ∧ (predecessors g v = [] → l = 1) := by
  have h := arrange_levels_spec g ord [] initState (by simpa using hnd)
    (by simpa using hto) (by simp) (fun v _ => rfl)
  intro v hv
  obtain ⟨l, h1, h2⟩ := h v (by simpa using hv)
  refine ⟨l, h1, h2, by omega, fun hp => ?_⟩
  rw [h2]
  simp [maxPredLvl, hp]

/-- C2, witness: the amended rule evaluated at the source vertex 0 of the
one-edge graph, along the order `toposortModel` actually produces. -/
theorem c2_initial_levels_witness :
    ∃ l, (arrange_nodes_in_levels (fromEdges [(0, 1)]) initState [0, 1]).level_of 0 = some l ∧
      l = maxPredLvl (fromEdges [(0, 1)])
            (arrange_nodes_in_levels (fromEdges [(0, 1)]) initState [0, 1]) 0 + 1 ∧
      1 ≤ l ∧ (predecessors (fromEdges [(0, 1)]) 0 = [] → l = 1) := by
  have hto : TopoOrdered (fromEdges [(0, 1)]).edges [0, 1] := by
    intro e he l1 l2 hsplit
    have he' : e = (0, 1) := by simpa [fromEdges] using he
    subst he'
    match l1, hsplit with
    | [], hsplit => simp at hsplit
    | [a], hsplit =>
      simp at hsplit
      simp [hsplit.1]
    | a :: b :: t, hsplit =>
      simp at hsplit
  exact c2_initial_levels (fromEdges [(0, 1)]) [0, 1] (by decide) hto 0 (by decide)

/-! ## Claim C10: cyclic input fails the whole call -/

/-- Splitting a duplicate-free list at the same element twice gives the same
parts. -/
theorem split_unique {α : Type} : ∀ (l1 : List α) (l2 m1 m2 : List α) (a : α),
    l1 ++ a :: l2 = m1 ++ a :: m2 → a ∉ l1 → a ∉ m1 → l1 = m1 ∧ l2 = m2 := by
  intro l1
  induction l1 with
  | nil =>
    intro l2 m1 m2 a h ha1 ha2
    cases m1 with
    | nil => simpa using h
    | cons b t =>
      simp only [List.nil_append, List.cons_append, List.cons.injEq] at h
      exact absurd (List.mem_cons.mpr (Or.inl h.1)) ha2
  | cons x t ih =>
    intro l2 m1 m2 a h ha1 ha2
    cases m1 with
    | nil =>
      simp only [List.cons_append, List.nil_append, List.cons.injEq] at h
      exact absurd (List.mem_cons.mpr (Or.inl h.1.symm)) ha1
    | cons y s =>
      simp only [List.cons_append, List.cons.injEq] at h
      obtain ⟨hxy, hrest⟩ := h
      have := ih l2 s m2 a hrest (fun hm => ha1 (List.mem_cons.mpr (Or.inr hm)))
        (fun hm => ha2 (List.mem_cons.mpr (Or.inr hm)))
      exact ⟨by rw [hxy, this.1], this.2⟩

/-- A successful `find?` of `noWaitingPred` means none of the found vertex's
predecessors is still unemitted. -/
theorem noWaitingPred_spec (es : List (Nat × Nat)) (rem : List Nat) (v : Nat)
    (h : noWaitingPred es rem v = true) :
    ∀ e ∈ es, e.2 = v → e.1 ∉ rem := by
  intro e he h2 hmem
  have := List.all_eq_true.mp h e he
  simp [h2, hmem] at this

/-- The single invariant-preserving description of `kahnAux`: the accumulator
plus the remainder stay a permutation of the base vertex set, and every edge
whose head is already emitted has its tail emitted strictly earlier (later in
the reversed accumulator). -/
theorem kahnAux_spec (es : List (Nat × Nat)) (base : List Nat) :
    ∀ (fuel : Nat) (acc rem : List Nat),
      (acc ++ rem).Perm base →
      (∀ e ∈ es, e.1 ∈ base ∧ e.2 ∈ base) →
      (∀ e ∈ es, e.2 ∈ acc → ∃ l1 l2, acc = l1 ++ e.2 :: l2 ∧ e.1 ∈ l2) →
      ∀ ord rest, kahnAux es fuel acc rem = (ord, rest) →
        ∃ accf, ord = accf.reverse ∧ (accf ++ rest).Perm base ∧
          (∀ e ∈ es, e.2 ∈ accf → ∃ l1 l2, accf = l1 ++ e.2 :: l2 ∧ e.1 ∈ l2) := by
  intro fuel
  induction fuel with
  | zero =>
    intro acc rem hperm hedge hord ord rest h
    simp only [kahnAux, Prod.mk.injEq] at h
    exact ⟨acc, h.1.symm, h.2 ▸ hperm, hord⟩
  | succ n ih =>
    intro acc rem hperm hedge hord ord rest h
    simp only [kahnAux] at h
    cases hf : rem.find? (noWaitingPred es rem) with
    | none =>
      rw [hf] at h
      simp only [Prod.mk.injEq] at h
      exact ⟨acc, h.1.symm, h.2 ▸ hperm, hord⟩
    | some v =>
      rw [hf] at h
      have hv_mem : v ∈ rem := List.mem_of_find?_eq_some hf
      have hv_ok := noWaitingPred_spec es rem v (List.find?_some hf)
      have hperm' : ((v :: acc) ++ rem.erase v).Perm base :=
        List.Perm.trans
          (List.Perm.trans List.perm_middle.symm
            (List.Perm.append_left acc (List.perm_cons_erase hv_mem).symm))
          hperm
      have hord' : ∀ e ∈ es, e.2 ∈ v :: acc →
          ∃ l1 l2, v :: acc = l1 ++ e.2 :: l2 ∧ e.1 ∈ l2 := by
        intro e he hmem
        rcases List.mem_cons.mp hmem with hev | hacc
        · -- the freshly emitted vertex: its tail is not in rem, so it is in acc
          have h1 : e.1 ∉ rem := hv_ok e he hev
          have h2 : e.1 ∈ acc ++ rem := hperm.symm.subset ((hedge e he).1)
          have h3 : e.1 ∈ acc := by
            rcases List.mem_append.mp h2 with h' | h'
            · exact h'
            · exact absurd h' h1
          exact ⟨[], acc, by simp [hev], h3⟩
        · obtain ⟨l1, l2, hsplit, hmem1⟩ := hord e he hacc
          exact ⟨v :: l1, l2, by rw [hsplit]; rfl, hmem1⟩
      exact ih (v :: acc) (rem.erase v) hperm' hedge hord' ord rest h

/-- Specification of the `toposort` model on success: a duplicate-free
topологically ordered enumeration of all the graph's vertices. -/
theorem toposortModel_spec (g : DiGraph)
    (hedge : ∀ e ∈ g.edges, e.1 < g.n ∧ e.2 < g.n) (ord : List Nat)
    (h : toposortModel g = some ord) :
    ord.Nodup ∧ (∀ v, v ∈ ord ↔ v < g.n) ∧ TopoOrdered g.edges ord := by
  unfold toposortModel at h
  rcases hk : kahnAux g.edges g.n [] (List.range g.n) with ⟨o, rest⟩
  rw [hk] at h
  by_cases hrest : rest.isEmpty
  · rw [if_pos hrest] at h
    injection h with h
    subst h
    obtain ⟨accf, hoe, hperm, hord⟩ := kahnAux_spec g.edges (List.range g.n) g.n [] (List.range g.n)
      (by simp) (fun e he => ⟨List.mem_range.mpr (hedge e he).1, List.mem_range.mpr (hedge e he).2⟩)
      (by simp) o rest hk
    rw [List.isEmpty_iff] at hrest
    subst hrest
    rw [List.append_nil] at hperm
    have hnodup : accf.Nodup := hperm.nodup_iff.mpr (List.nodup_range _)
    subst hoe
    refine ⟨List.nodup_reverse.mpr hnodup, ?_, ?_⟩
    · intro v
      rw [List.mem_reverse]
      rw [← List.mem_range]
      exact hperm.mem_iff
    · intro e he l1 l2 hsplit
      have hsplit2 : accf.reverse = l1 ++ e.2 :: l2 := hsplit
      have hmem : e.2 ∈ accf := by
        rw [← List.mem_reverse, hsplit2]
        simp
      obtain ⟨m1, m2, hsp2, hm⟩ := hord e he hmem
      have hrev : accf.reverse = m2.reverse ++ e.2 :: m1.reverse := by
        rw [hsp2]
        simp
      have hnd2 : accf.reverse.Nodup := List.nodup_reverse.mpr hnodup
      have h1 : e.2 ∉ l1 := by
        intro hc
        rw [hsplit2] at hnd2
        exact (List.disjoint_of_nodup_append hnd2) hc (List.mem_cons_self _ _)
      have h2 : e.2 ∉ m2.reverse := by
        intro hc
        rw [hrev] at hnd2
        exact (List.disjoint_of_nodup_append hnd2) hc (List.mem_cons_self _ _)
      have := split_unique l1 l2 m2.reverse m1.reverse e.2 (by rw [← hsplit2, ← hrev]) h1 h2
      rw [this.1]
      simpa using hm
  · rw [if_neg hrest] at h
    cases h

/-- The running maximum computed by `fromEdges` only grows. -/
theorem fromEdges_foldl_ge (es : List (Nat × Nat)) :
    ∀ b : Nat, b ≤ es.foldl (fun m e => max m (max e.1 e.2 + 1)) b := by
  induction es with
  | nil => intro b; simp
  | cons e rest ih =>
    intro b
    exact le_trans (le_max_left b (max e.1 e.2 + 1)) (ih (max b (max e.1 e.2 + 1)))

/-- Both endpoints of every edge lie below the node count of `fromEdges`. -/
theorem fromEdges_edge_lt (es : List (Nat × Nat)) :
    ∀ e ∈ es, e.1 < (fromEdges es).n ∧ e.2 < (fromEdges es).n := by
  have main : ∀ (l : List (Nat × Nat)) (b : Nat) (e : Nat × Nat), e ∈ l →
      max e.1 e.2 + 1 ≤ l.foldl (fun m e => max m (max e.1 e.2 + 1)) b := by
    intro l
    induction l with
    | nil => intro b e he; cases he
    | cons x rest ih =>
      intro b e he
      rcases List.mem_cons.mp he with he | he
      · subst he
        exact le_trans (le_max_right b (max e.1 e.2 + 1)) (fromEdges_foldl_ge rest _)
      · exact ih _ e he
  intro e he
  have := main es 0 e he
  constructor
  · exact lt_of_lt_of_le (Nat.lt_succ_of_le (le_max_left e.1 e.2)) this
  · exact lt_of_lt_of_le (Nat.lt_succ_of_le (le_max_right e.1 e.2)) this

/-- A directed cycle: a nonempty vertex list whose consecutive members are
edges and whose last member has an edge back to the head. -/
def IsCycle (es : List (Nat × Nat)) (c : List Nat) : Prop :=
  c ≠ [] ∧ c.Chain' (fun a b => (a, b) ∈ es) ∧ ((c.getLast?).getD 0, c.headD 0) ∈ es

theorem indexOf_append_left {a : Nat} : ∀ (l1 l2 : List Nat), a ∈ l1 →
    (l1 ++ l2).indexOf a = l1.indexOf a := by
  intro l1
  induction l1 with
  | nil => intro l2 h; cases h
  | cons x t ih =>
    intro l2 h
    by_cases hxa : x = a
    · simp [List.indexOf_cons_eq _ hxa]
    · rcases List.mem_cons.mp h with h' | h'
      · exact absurd h'.symm hxa
      · simp only [List.cons_append, List.indexOf_cons_ne _ hxa, ih l2 h']

theorem indexOf_append_right {a : Nat} : ∀ (l1 l2 : List Nat), a ∉ l1 →
    (l1 ++ l2).indexOf a = l1.length + l2.indexOf a := by
  intro l1
  induction l1 with
  | nil => intro l2 _; simp
  | cons x t ih =>
    intro l2 h
    have hxa : x ≠ a := fun hc => h (List.mem_cons.mpr (Or.inl hc.symm))
    simp only [List.cons_append, List.indexOf_cons_ne _ hxa, List.length_cons,
      ih l2 (fun hc => h (List.mem_cons.mpr (Or.inr hc)))]
    omega

theorem indexOf_lt_length_of_mem {a : Nat} : ∀ (l : List Nat), a ∈ l →
    l.indexOf a < l.length := by
  intro l
  induction l with
  | nil => intro h; cases h
  | cons x t ih =>
    intro h
    by_cases hxa : x = a
    · simp [List.indexOf_cons_eq _ hxa]
    · rcases List.mem_cons.mp h with h' | h'
      · exact absurd h'.symm hxa
      · simp only [List.indexOf_cons_ne _ hxa, List.length_cons]
        exact Nat.succ_lt_succ (ih h')

/-- In a duplicate-free topologically ordered list, the tail of every edge
whose head occurs sits strictly earlier. -/
theorem topo_indexOf_lt (es : List (Nat × Nat)) (ord : List Nat)
    (hnd : ord.Nodup) (hto : TopoOrdered es ord) :
    ∀ e ∈ es, e.2 ∈ ord → ord.indexOf e.1 < ord.indexOf e.2 := by
  intro e he hmem
  obtain ⟨l1, l2, hsplit⟩ := List.append_of_mem hmem
  have ha : e.1 ∈ l1 := hto e he l1 l2 hsplit
  have hb : e.2 ∉ l1 := by
    intro hc
    rw [hsplit] at hnd
    exact (List.disjoint_of_nodup_append hnd) hc (List.mem_cons_self _ _)
  rw [hsplit, indexOf_append_left l1 _ ha, indexOf_append_right l1 _ hb,
    List.indexOf_cons_self]
  have := indexOf_lt_length_of_mem l1 ha
  omega

/-- Along a chain of edges the `indexOf` positions increase weakly from head
to last. -/
theorem chain_indexOf_le (es : List (Nat × Nat)) (ord : List Nat)
    (hmono : ∀ e ∈ es, e.2 ∈ ord → ord.indexOf e.1 < ord.indexOf e.2)
    (hcov : ∀ e ∈ es, e.2 ∈ ord) :
    ∀ (c : List Nat), c ≠ [] → c.Chain' (fun a b => (a, b) ∈ es) →
      ord.indexOf (c.headD 0) ≤ ord.indexOf ((c.getLast?).getD 0) := by
  intro c
  induction c with
  | nil => intro h; cases h rfl
  | cons x t ih =>
    intro _ hchain
    cases t with
    | nil => simp
    | cons y s =>
      rw [List.chain'_cons] at hchain
      have h1 : ord.indexOf x < ord.indexOf y :=
        hmono (x, y) hchain.1 (hcov (x, y) hchain.1)
      have h2 := ih (by simp) hchain.2
      simp only [List.headD_cons] at h2 ⊢
      rw [List.getLast?_cons_cons]
      exact le_trans (le_of_lt h1) h2

/-- C10: a directed cycle in the input edge list makes the whole
`create_layers` call fail: the toposort model errs, the source `unwrap`s it
(a panic), and no partial layout is returned. -/
theorem c10_cycle_fails (edges : List (Nat × Nat)) (node_size : Int) (flag : Bool)
    (c : List Nat) (hc : IsCycle edges c) :
    create_layers edges node_size flag = none := by
  cases ht : toposortModel (fromEdges edges) with
  | none =>
    simp [create_layers, into_weakly_connected_components, ht]
  | some ord =>
    exfalso
    obtain ⟨hnd, hcov, hto⟩ := toposortModel_spec (fromEdges edges)
      (fromEdges_edge_lt edges) ord ht
    have hcov2 : ∀ e ∈ edges, e.2 ∈ ord :=
      fun e he => (hcov e.2).mpr ((fromEdges_edge_lt edges) e he).2
    have hmono := topo_indexOf_lt edges ord hnd hto
    have hchain := chain_indexOf_le edges ord hmono hcov2 c hc.1 hc.2.1
    have hclose := hmono (_, _) hc.2.2 (hcov2 (_, _) hc.2.2)
    simp only at hclose
    omega

/-- C10, witness: the two-cycle `0 → 1 → 0` makes the call fail. -/
theorem c10_cycle_fails_witness :
    IsCycle [(0, 1), (1, 0)] [0, 1] ∧
    create_layers [(0, 1), (1, 0)] 40 false = none := by
  have hcyc : IsCycle [(0, 1), (1, 0)] [0, 1] := by
    refine ⟨by simp, ?_, by simp⟩
    simp [List.chain'_cons]
  exact ⟨hcyc, c10_cycle_fails [(0, 1), (1, 0)] 40 false [0, 1] hcyc⟩

/-! ## Claim C1: groundwork — generic fold and list helpers -/

/-- Invariant preservation through an `Option`-valued left fold. -/
theorem foldlM_inv {σ α : Type} (f : σ → α → Option σ) (P : σ → Prop) :
    ∀ (l : List α) (s s' : σ),
      (∀ x ∈ l, ∀ t t', P t → f t x = some t' → P t') →
      P s → l.foldlM f s = some s' → P s' := by
  intro l
  induction l with
  | nil =>
    intro s s' _ hP h
    simp only [List.foldlM] at h
    injection h with h
    exact h ▸ hP
  | cons x xs ih =>
    intro s s' hstep hP h
    simp only [List.foldlM] at h
    cases hx : f s x with
    | none => rw [hx] at h; cases h
    | some t =>
      rw [hx] at h
      exact ih t s' (fun y hy => hstep y (List.mem_cons.mpr (Or.inr hy)))
        (hstep x (List.mem_cons.mpr (Or.inl rfl)) s t hP hx) h

/-- A list with exactly one copy of `a` has a unique position holding `a`. -/
theorem count_one_unique_pos {α : Type} [BEq α] [LawfulBEq α] :
    ∀ (l : List α) (a : α), l.count a = 1 →
      ∃ i : Nat, l[i]? = some a ∧ ∀ j : Nat, l[j]? = some a → j = i := by
  intro l
  induction l with
  | nil => intro a h; exact absurd h (by simp)
  | cons x t ih =>
    intro a h
    by_cases hxa : x = a
    · subst hxa
      rw [List.count_cons_self] at h
      have ht : x ∉ t := List.count_eq_zero.mp (by omega)
      refine ⟨0, by simp, ?_⟩
      intro j hj
      cases j with
      | zero => rfl
      | succ k =>
        rw [List.getElem?_cons_succ] at hj
        exact absurd (List.mem_iff_getElem?.mpr ⟨k, hj⟩) ht
    · rw [List.count_cons_of_ne (fun hc => hxa hc.symm)] at h
      obtain ⟨i, hi, huniq⟩ := ih a h
      refine ⟨i + 1, by simpa using hi, ?_⟩
      intro j hj
      cases j with
      | zero => simp at hj; exact absurd hj hxa
      | succ k => rw [List.getElem?_cons_succ] at hj; simpa using huniq k hj

/-- The synchrony invariant of the refinement loop: every vertex has a level
and a column, the maps point at a slot holding the vertex, and every occupied
slot agrees with the maps (so each vertex occupies exactly one slot). -/
structure Sync (g : DiGraph) (st : GState) : Prop where
  total : ∀ v, v < g.n → ∃ l i, st.level_of v = some l ∧ st.index_of v = some i
  at_pos : ∀ v l i, v < g.n → st.level_of v = some l → st.index_of v = some i →
      ∃ row, st.layers[l]? = some row ∧ row[i]? = some (some v)
  slots : ∀ L row i v, st.layers[L]? = some row → row[i]? = some (some v) →
      v < g.n ∧ st.level_of v = some L ∧ st.index_of v = some i

/-- A crossing-reducer call on two vertices of level `L` preserves the
synchrony invariant and never touches `level_of`. -/
theorem reduce_crossings_sync (g : DiGraph) (st : GState) (node left L : Nat) (st' : GState)
    (hs : Sync g st) (hnode : node < g.n) (hleft : left < g.n)
    (hlnode : st.level_of node = some L) (hlleft : st.level_of left = some L)
    (h : reduce_crossings g st node left L = some st') :
    Sync g st' ∧ st'.level_of = st.level_of := by
  cases hb : filter_close_lvl st L (successors g node) with
  | none => simp only [reduce_crossings, hb] at h; cases h
  | some succs =>
  cases ha : filter_close_lvl st L (successors g left) with
  | none => simp only [reduce_crossings, hb, ha] at h; cases h
  | some left_succs =>
  simp only [reduce_crossings, hb, ha] at h
  split at h
  case isFalse =>
    injection h with h
    subst h
    exact ⟨hs, rfl⟩
  case isTrue =>
  cases hrow : st.layers[L]? with
  | none => rw [hrow] at h; cases h
  | some row =>
  rw [hrow] at h
  cases hni : st.index_of node with
  | none => rw [hni] at h; cases h
  | some ni =>
  cases hli : st.index_of left with
  | none => rw [hni, hli] at h; cases h
  | some li =>
  rw [hni, hli] at h
  simp only [] at h
  by_cases hb2 : ni < row.length ∧ li < row.length
  case neg => rw [if_neg (by simpa using hb2)] at h; cases h
  case pos =>
  rw [if_pos (by simp [hb2.1, hb2.2])] at h
  injection h with h
  obtain ⟨hniL, hliL⟩ := hb2
  have hLlen : L < st.layers.length := (List.getElem?_eq_some_iff.mp hrow).1
  have hslot_node : row[ni]? = some (some node) := by
    obtain ⟨row2, hrow2, hsl⟩ := hs.at_pos node L ni hnode hlnode hni
    rw [hrow] at hrow2
    injection hrow2 with hrow2
    rw [hrow2]; exact hsl
  have hslot_left : row[li]? = some (some left) := by
    obtain ⟨row2, hrow2, hsl⟩ := hs.at_pos left L li hleft hlleft hli
    rw [hrow] at hrow2
    injection hrow2 with hrow2
    rw [hrow2]; exact hsl
  have hnl_iff : node = left ↔ ni = li := by
    constructor
    · intro he
      subst he
      rw [hni] at hli
      injection hli
    · intro he
      subst he
      rw [hslot_node] at hslot_left
      injection hslot_left with hsl
      injection hsl
  set row2 := (row.set ni (some left)).set li (some node) with hrow2def
  have hlay2 : st'.layers = st.layers.set L row2 := by rw [← h]
  have hlvl2 : st'.level_of = st.level_of := by rw [← h]
  have hidxeq : st'.index_of = mupd (mupd st.index_of left ni) node li := by rw [← h]
  have hget_row2 : ∀ j : Nat, row2[j]? =
      if j = li then some (some node)
      else if j = ni then some (some left)
      else row[j]? := by
    intro j
    by_cases hjli : j = li
    · subst hjli
      rw [if_pos rfl, hrow2def, List.getElem?_set_self (by simpa using hliL)]
    · rw [if_neg hjli, hrow2def]
      by_cases hjni : j = ni
      · subst hjni
        rw [if_pos rfl, List.getElem?_set_ne (fun hc => hjli hc.symm),
          List.getElem?_set_self (by simpa using hniL)]
      · rw [if_neg hjni, List.getElem?_set_ne (fun hc => hjli hc.symm),
          List.getElem?_set_ne (fun hc => hjni hc.symm)]
  have hget_layers : ∀ M : Nat, st'.layers[M]? =
      if M = L then some row2 else st.layers[M]? := by
    intro M
    rw [hlay2]
    by_cases hML : M = L
    · subst hML
      rw [if_pos rfl, List.getElem?_set_self (by simpa using hLlen)]
    · rw [if_neg hML, List.getElem?_set_ne (fun hc => hML hc.symm)]
  have hidx2 : ∀ v : Nat, st'.index_of v =
      if v = node then some li
      else if v = left then some ni
      else st.index_of v := by
    intro v
    rw [hidxeq]
    by_cases hvn : v = node
    · subst hvn
      rw [if_pos rfl]
      exact mupd_self _ _ _
    · rw [if_neg hvn, mupd_other _ _ _ _ hvn]
      by_cases hvl : v = left
      · subst hvl
        rw [if_pos rfl]
        exact mupd_self _ _ _
      · rw [if_neg hvl, mupd_other _ _ _ _ hvl]
  refine ⟨⟨?_, ?_, ?_⟩, hlvl2⟩
  · intro v hv
    obtain ⟨l, i, hl, hi⟩ := hs.total v hv
    rw [hlvl2, hidx2 v]
    by_cases hvn : v = node
    · exact ⟨l, li, hl, by rw [if_pos hvn]⟩
    · by_cases hvl : v = left
      · exact ⟨l, ni, hl, by rw [if_neg hvn, if_pos hvl]⟩
      · exact ⟨l, i, hl, by rw [if_neg hvn, if_neg hvl]; exact hi⟩
  · intro v l i hv hl hi
    rw [hlvl2] at hl
    rw [hidx2 v] at hi
    by_cases hvn : v = node
    · subst hvn
      rw [if_pos rfl] at hi
      injection hi with hi
      subst hi
      rw [hlnode] at hl
      injection hl with hl
      subst hl
      exact ⟨row2, by rw [hget_layers L, if_pos rfl], by rw [hget_row2 li, if_pos rfl]⟩
    · rw [if_neg hvn] at hi
      by_cases hvl : v = left
      · subst hvl
        rw [if_pos rfl] at hi
        injection hi with hi
        subst hi
        rw [hlleft] at hl
        injection hl with hl
        subst hl
        have hnili : ¬ ni = li := fun hc => hvn ((hnl_iff.mpr hc).symm)
        refine ⟨row2, by rw [hget_layers L, if_pos rfl], ?_⟩
        rw [hget_row2 ni, if_neg hnili, if_pos rfl]
      · rw [if_neg hvl] at hi
        obtain ⟨rowl, hrowl, hsl⟩ := hs.at_pos v l i hv hl hi
        by_cases hlL : l = L
        · subst hlL
          rw [hrow] at hrowl
          injection hrowl with hrowl
          subst hrowl
          have hine : ¬ i = li := by
            intro hc
            rw [hc, hslot_left] at hsl
            injection hsl with hsl
            injection hsl with hsl
            exact hvl hsl.symm
          have hine2 : ¬ i = ni := by
            intro hc
            rw [hc, hslot_node] at hsl
            injection hsl with hsl
            injection hsl with hsl
            exact hvn hsl.symm
          refine ⟨row2, by rw [hget_layers l, if_pos rfl], ?_⟩
          rw [hget_row2 i, if_neg hine, if_neg hine2]
          exact hsl
        · exact ⟨rowl, by rw [hget_layers l, if_neg hlL]; exact hrowl, hsl⟩
  · intro M rowm i v hM hsl
    rw [hget_layers M] at hM
    rw [hlvl2]
    by_cases hML : M = L
    · subst hML
      rw [if_pos rfl] at hM
      injection hM with hM
      subst hM
      rw [hget_row2 i] at hsl
      by_cases hili : i = li
      · rw [if_pos hili] at hsl
        injection hsl with hsl
        injection hsl with hsl
        subst hsl
        subst hili
        exact ⟨hnode, hlnode, by rw [hidx2 node, if_pos rfl]⟩
      · rw [if_neg hili] at hsl
        by_cases hini : i = ni
        · rw [if_pos hini] at hsl
          injection hsl with hsl
          injection hsl with hsl
          subst hsl
          subst hini
          have hvn : ¬ left = node := fun hc => hili (hnl_iff.mp hc.symm)
          refine ⟨hleft, hlleft, ?_⟩
          rw [hidx2 left, if_neg hvn, if_pos rfl]
        · rw [if_neg hini] at hsl
          obtain ⟨hv, hl, hi⟩ := hs.slots _ row i v hrow hsl
          have hvn : ¬ v = node := by
            intro hc
            subst hc
            rw [hni] at hi
            injection hi with hi
            exact hini hi.symm
          have hvl : ¬ v = left := by
            intro hc
            subst hc
            rw [hli] at hi
            injection hi with hi
            exact hili hi.symm
          exact ⟨hv, hl, by rw [hidx2 v, if_neg hvn, if_neg hvl]; exact hi⟩
    · rw [if_neg hML] at hM
      obtain ⟨hv, hl, hi⟩ := hs.slots M rowm i v hM hsl
      have hvn : ¬ v = node := by
        intro hc
        subst hc
        rw [hlnode] at hl
        injection hl with hl
        exact hML hl.symm
      have hvl : ¬ v = left := by
        intro hc
        subst hc
        rw [hlleft] at hl
        injection hl with hl
        exact hML hl.symm
      exact ⟨hv, hl, by rw [hidx2 v, if_neg hvn, if_neg hvl]; exact hi⟩

/-- Moving a vertex from its slot to an EMPTY slot of the same row (the gap
slider's elementary move) preserves the synchrony invariant. -/
theorem slot_move_sync (g : DiGraph) (st : GState) (L : Nat) (row : List (Option Nat))
    (node ni si : Nat) (st' : GState)
    (hs : Sync g st) (hnode : node < g.n)
    (hrow : st.layers[L]? = some row)
    (hlnode : st.level_of node = some L)
    (hni : st.index_of node = some ni)
    (hslot : row[ni]? = some (some node))
    (hempty : row[si]? = some none)
    (hst' : st'.layers = st.layers.set L ((row.set ni none).set si (some node)) ∧
      st'.level_of = st.level_of ∧ st'.index_of = mupd st.index_of node si) :
    Sync g st' ∧ st'.level_of = st.level_of := by
  obtain ⟨hlay2, hlvl2, hidxeq⟩ := hst'
  have hniL : ni < row.length := (List.getElem?_eq_some_iff.mp hslot).1
  have hsiL : si < row.length := (List.getElem?_eq_some_iff.mp hempty).1
  have hLlen : L < st.layers.length := (List.getElem?_eq_some_iff.mp hrow).1
  have hnisi : ¬ si = ni := by
    intro hc
    rw [hc, hslot] at hempty
    injection hempty with hempty
    cases hempty
  have hget_row2 : ∀ j : Nat, ((row.set ni none).set si (some node))[j]? =
      if j = si then some (some node)
      else if j = ni then some none
      else row[j]? := by
    intro j
    by_cases hjsi : j = si
    · subst hjsi
      rw [if_pos rfl, List.getElem?_set_self (by simpa using hsiL)]
    · rw [if_neg hjsi]
      by_cases hjni : j = ni
      · subst hjni
        rw [if_pos rfl, List.getElem?_set_ne (fun hc => hjsi hc.symm),
          List.getElem?_set_self (by simpa using hniL)]
      · rw [if_neg hjni, List.getElem?_set_ne (fun hc => hjsi hc.symm),
          List.getElem?_set_ne (fun hc => hjni hc.symm)]
  have hget_layers : ∀ M : Nat, st'.layers[M]? =
      if M = L then some ((row.set ni none).set si (some node)) else st.layers[M]? := by
    intro M
    rw [hlay2]
    by_cases hML : M = L
    · subst hML
      rw [if_pos rfl, List.getElem?_set_self (by simpa using hLlen)]
    · rw [if_neg hML, List.getElem?_set_ne (fun hc => hML hc.symm)]
  have hidx2 : ∀ v : Nat, st'.index_of v =
      if v = node then some si else st.index_of v := by
    intro v
    rw [hidxeq]
    by_cases hvn : v = node
    · subst hvn
      rw [if_pos rfl]
      exact mupd_self _ _ _
    · rw [if_neg hvn, mupd_other _ _ _ _ hvn]
  refine ⟨⟨?_, ?_, ?_⟩, hlvl2⟩
  · intro v hv
    obtain ⟨l, i, hl, hi⟩ := hs.total v hv
    rw [hlvl2, hidx2 v]
    by_cases hvn : v = node
    · exact ⟨l, si, hl, by rw [if_pos hvn]⟩
    · exact ⟨l, i, hl, by rw [if_neg hvn]; exact hi⟩
  · intro v l i hv hl hi
    rw [hlvl2] at hl
    rw [hidx2 v] at hi
    by_cases hvn : v = node
    · subst hvn
      rw [if_pos rfl] at hi
      injection hi with hi
      subst hi
      rw [hlnode] at hl
      injection hl with hl
      subst hl
      exact ⟨_, by rw [hget_layers L, if_pos rfl], by rw [hget_row2 si, if_pos rfl]⟩
    · rw [if_neg hvn] at hi
      obtain ⟨rowl, hrowl, hsl⟩ := hs.at_pos v l i hv hl hi
      by_cases hlL : l = L
      · subst hlL
        rw [hrow] at hrowl
        injection hrowl with hrowl
        subst hrowl
        have hine : ¬ i = si := by
          intro hc
          rw [hc, hempty] at hsl
          injection hsl with hsl
          cases hsl
        have hine2 : ¬ i = ni := by
          intro hc
          rw [hc, hslot] at hsl
          injection hsl with hsl
          injection hsl with hsl
          exact hvn hsl.symm
        refine ⟨_, by rw [hget_layers l, if_pos rfl], ?_⟩
        rw [hget_row2 i, if_neg hine, if_neg hine2]
        exact hsl
      · exact ⟨rowl, by rw [hget_layers l, if_neg hlL]; exact hrowl, hsl⟩
  · intro M rowm i v hM hsl
    rw [hget_layers M] at hM
    rw [hlvl2]
    by_cases hML : M = L
    · subst hML
      rw [if_pos rfl] at hM
      injection hM with hM
      subst hM
      rw [hget_row2 i] at hsl
      by_cases hisi : i = si
      · rw [if_pos hisi] at hsl
        injection hsl with hsl
        injection hsl with hsl
        subst hsl
        subst hisi
        exact ⟨hnode, hlnode, by rw [hidx2 node, if_pos rfl]⟩
      · rw [if_neg hisi] at hsl
        by_cases hini : i = ni
        · rw [if_pos hini] at hsl
          injection hsl with hsl
          cases hsl
        · rw [if_neg hini] at hsl
          obtain ⟨hv, hl, hi⟩ := hs.slots _ row i v hrow hsl
          have hvn : ¬ v = node := by
            intro hc
            subst hc
            rw [hni] at hi
            injection hi with hi
            exact hini hi.symm
          exact ⟨hv, hl, by rw [hidx2 v, if_neg hvn]; exact hi⟩
    · rw [if_neg hML] at hM
      obtain ⟨hv, hl, hi⟩ := hs.slots M rowm i v hM hsl
      have hvn : ¬ v = node := by
        intro hc
        subst hc
        rw [hlnode] at hl
        injection hl with hl
        exact hML hl.symm
      exact ⟨hv, hl, by rw [hidx2 v, if_neg hvn]; exact hi⟩

/-- A gap-slider call on a vertex of level `L` preserves the synchrony
invariant and never touches `level_of`. -/
theorem swap_with_none_sync (g : DiGraph) (st : GState) (node L : Nat) (st' : GState) (r : Bool)
    (hs : Sync g st) (hnode : node < g.n) (hlnode : st.level_of node = some L)
    (h : swap_with_none_neighbors g st node L = some (st', r)) :
    Sync g st' ∧ st'.level_of = st.level_of := by
  cases hrow : st.layers[L]? with
  | none => simp only [swap_with_none_neighbors, hrow] at h; cases h
  | some row =>
  cases hfi : row.findIdx? (fun s => s == some node) with
  | none => simp only [swap_with_none_neighbors, hrow, hfi] at h; cases h
  | some ni =>
  simp only [swap_with_none_neighbors, hrow, hfi] at h
  have hslot : row[ni]? = some (some node) := by
    have hthis := List.findIdx?_of_eq_some hfi
    cases hg : row[ni]? with
    | none => rw [hg] at hthis; exact absurd hthis (by simp)
    | some a =>
      rw [hg] at hthis
      simp only [beq_iff_eq] at hthis
      rw [hthis]
  have hniL : ni < row.length := (List.getElem?_eq_some_iff.mp hslot).1
  -- helper: a `getD _ none` that reads as EMPTY at an in-bounds position is an
  -- EMPTY slot
  have hgetD : ∀ j : Nat, j < row.length → (row.getD j none).isNone = true →
      row[j]? = some none := by
    intro j hj hn
    obtain ⟨x, hx⟩ : ∃ x, row[j]? = some x :=
      ⟨_, List.getElem?_eq_getElem hj⟩
    have hgd := List.getD_eq_getElem?_getD row j none
    rw [hx] at hgd
    simp only [Option.getD_some] at hgd
    rw [hgd] at hn
    rw [Option.isNone_iff_eq_none.mp hn] at hx
    exact hx
  -- finish a leaf that made no move
  have hdone : ∀ (q : GState × Bool), some q = some (st', r) → q.1 = st →
      Sync g st' ∧ st'.level_of = st.level_of := by
    intro q hq hq1
    obtain ⟨q1, q2⟩ := q
    injection hq with hq
    injection hq with ha hb
    replace hq1 : q1 = st := hq1
    rw [← ha, hq1]
    exact ⟨hs, rfl⟩
  -- finish a genuine move leaf
  have hmove : ∀ (si : Nat), row[si]? = some none →
      some ({ st with
        layers := st.layers.set L ((row.set ni none).set si (some node)),
        index_of := mupd st.index_of node si }, false) = some (st', r) →
      Sync g st' ∧ st'.level_of = st.level_of := by
    intro si hempty hq
    injection hq with hq
    injection hq with h1 h2
    exact slot_move_sync g st L row node ni si st' hs hnode hrow hlnode
      ((hs.slots L row ni node hrow hslot).2.2) hslot hempty
      ⟨by rw [← h1], by rw [← h1], by rw [← h1]⟩
  split at h
  · cases h
  next hni0 =>
  split at h
  -- rt-branch: the vertex is within one slot of the end, `right` is absent
  next hlen =>
    split at h
    · exact hdone _ h rfl
    next =>
    split at h
    next => cases h
    next nbrs hfc =>
    split at h
    · exact hdone _ h rfl
    next =>
    split at h
    next => cases h
    next idxs hmm =>
    split at h
    next heq =>
      exact hdone _ h rfl
    next si heq =>
      split at heq
      next hc1 =>
        -- leftward move chosen
        injection heq with heq
        rw [Bool.and_eq_true] at hc1
        have hempty : row[ni - 1]? = some none :=
          hgetD _ (by omega) hc1.2
        split at h
        next hcap =>
          exfalso
          rw [List.length_set] at hcap
          omega
        next =>
        split at h
        next => rw [← heq] at h; exact hmove _ hempty h
        next => cases h
      next =>
      split at heq
      next hc2 =>
        -- rightward move chosen while the vertex sits at the end: the write
        -- indexes one past the row and panics
        injection heq with heq
        exfalso
        split at h
        next hcap =>
          rw [List.length_set] at hcap
          omega
        next =>
        split at h
        next hcap =>
          rw [List.length_set] at hcap
          omega
        next => cases h
      next => cases heq
  -- rt-branch: `right` is a real slot
  next hlen =>
    split at h
    · exact hdone _ h rfl
    next =>
    split at h
    next => cases h
    next nbrs hfc =>
    split at h
    · exact hdone _ h rfl
    next =>
    split at h
    next => cases h
    next idxs hmm =>
    split at h
    next heq =>
      exact hdone _ h rfl
    next si heq =>
      split at heq
      next hc1 =>
        injection heq with heq
        rw [Bool.and_eq_true] at hc1
        have hempty : row[ni - 1]? = some none :=
          hgetD _ (by omega) hc1.2
        split at h
        next hcap =>
          exfalso
          rw [List.length_set] at hcap
          omega
        next =>
        split at h
        next => rw [← heq] at h; exact hmove _ hempty h
        next => cases h
      next =>
      split at heq
      next hc2 =>
        injection heq with heq
        rw [Bool.and_eq_true] at hc2
        have hempty : row[ni + 1]? = some none :=
          hgetD _ (by omega) hc2.2
        split at h
        next hcap =>
          exfalso
          rw [List.length_set] at hcap
          omega
        next =>
        split at h
        next => rw [← heq] at h; exact hmove _ hempty h
        next => cases h
      next => cases heq

/-! ## Claim C1: level monotonicity along edges

The development follows the pipeline: a grid invariant (`Grid`) and the
monotonicity property (`Mono`) are established by the Leveler's phase A and
preserved by phases B and C and by the Centerer; `fill_index` then turns the
grid invariant into the synchrony invariant `Sync`, which the refinement loop
preserves without touching `level_of`; the roots-to-top pass (flag on) keeps a
weaker occupancy ordering that still forces the emitted `y` values to
decrease along every edge. -/

/-- Level monotonicity: along every edge the assigned levels strictly
increase. -/
def Mono (g : DiGraph) (st : GState) : Prop :=
  ∀ u v, (u, v) ∈ g.edges → ∀ lu lv, st.level_of u = some lu → st.level_of v = some lv →
    lu < lv

/-- The grid invariant of the levelling phases: every vertex has a level at
least 1, occurs exactly once in the row of its level, and every occupied slot
belongs to a vertex whose level is the row's index. -/
structure Grid (g : DiGraph) (st : GState) : Prop where
  total : ∀ v, v < g.n → ∃ l, st.level_of v = some l
  pos : ∀ v l, v < g.n → st.level_of v = some l →
    1 ≤ l ∧ ∃ row, st.layers[l]? = some row ∧ row.count (some v) = 1
  slots : ∀ L row x, st.layers[L]? = some row → some x ∈ row →
    x < g.n ∧ st.level_of x = some L

theorem add_node_to_level_length (st : GState) (node l : Nat) :
    (add_node_to_level st node l).layers.length =
      if l < st.layers.length then st.layers.length else st.layers.length + (l + 1) := by
  unfold add_node_to_level
  split
  next h => simp [h]
  next h => simp [h]

theorem add_node_to_level_get (st : GState) (node l L : Nat) :
    (add_node_to_level st node l).layers[L]? =
      if L = l then some (st.layers.getD l [] ++ [some node])
      else if L < st.layers.length then st.layers[L]?
      else if L < st.layers.length + (l + 1) ∧ ¬ l < st.layers.length then some []
      else none := by
  unfold add_node_to_level
  by_cases hl : l < st.layers.length
  · simp only [if_pos hl]
    by_cases hL : L = l
    · subst hL
      simp [List.getElem?_set, hl, List.getD_eq_getElem?_getD, List.getElem?_eq_getElem hl]
    · simp only [if_neg hL]
      rw [List.getElem?_set_ne (fun hc => hL hc.symm)]
      by_cases hLlen : L < st.layers.length
      · simp [hLlen, hl]
      · rw [List.getElem?_eq_none (Nat.le_of_not_lt hLlen)]
        simp [hLlen, hl]
  · simp only [if_neg hl]
    have hglen : (st.layers ++ List.replicate (l + 1) ([] : List (Option Nat))).length =
        st.layers.length + (l + 1) := by simp
    have hgl : (st.layers ++ List.replicate (l + 1) ([] : List (Option Nat))).getD l [] = [] := by
      rw [List.getD_eq_getElem?_getD, List.getElem?_append_right (Nat.le_of_not_lt hl)]
      rw [List.getElem?_replicate]
      have h1 : l - st.layers.length < l + 1 := by omega
      simp [h1]
    have hgetDl : st.layers.getD l [] = [] := by
      rw [List.getD_eq_getElem?_getD, List.getElem?_eq_none (Nat.le_of_not_lt hl)]
      rfl
    by_cases hL : L = l
    · subst hL
      rw [List.getElem?_set_eq (by rw [hglen]; omega)]
      rw [hgl, hgetDl]
      simp
    · simp only [if_neg hL]
      rw [List.getElem?_set_ne (fun hc => hL hc.symm)]
      by_cases hLlen : L < st.layers.length
      · rw [List.getElem?_append, if_pos hLlen, if_pos hLlen]
      · simp only [if_neg hLlen]
        by_cases hLg : L < st.layers.length + (l + 1)
        · rw [List.getElem?_append_right (Nat.le_of_not_lt hLlen)]
          rw [List.getElem?_replicate]
          have h1 : L - st.layers.length < l + 1 := by omega
          simp [h1, hLg, hl]
        · rw [List.getElem?_eq_none (by rw [hglen] at *; omega)]
          rw [if_neg (by omega : ¬(L < st.layers.length + (l + 1) ∧ ¬ l < st.layers.length))]

/-- The part of the grid invariant that the levelling fold preserves
step by step. -/
def GridCore (g : DiGraph) (st : GState) : Prop :=
  (∀ v l, st.level_of v = some l →
    1 ≤ l ∧ ∃ row, st.layers[l]? = some row ∧ row.count (some v) = 1) ∧
  (∀ L row x, st.layers[L]? = some row → some x ∈ row → x < g.n ∧ st.level_of x = some L)

theorem arrange_node_gridcore (g : DiGraph) (st : GState) (hd : Nat)
    (hhd : hd < g.n) (hnone : st.level_of hd = none) (hc : GridCore g st) :
    GridCore g (arrange_node g st hd) ∧
    (arrange_node g st hd).level_of hd = some (maxPredLvl g st hd + 1) ∧
    (∀ v, v ≠ hd → (arrange_node g st hd).level_of v = st.level_of v) := by
  obtain ⟨hpos, hslots⟩ := hc
  set l := maxPredLvl g st hd + 1 with hldef
  have hnorow : ∀ (L : Nat) (row : List (Option Nat)),
      st.layers[L]? = some row → some hd ∉ row := by
    intro L row hrow hmem
    rw [(hslots L row hd hrow hmem).2] at hnone
    cases hnone
  have hlvl : (arrange_node g st hd).level_of = mupd st.level_of hd l :=
    arrange_node_level_of g st hd
  have hlay : ∀ L, (arrange_node g st hd).layers[L]? =
      if L = l then some (st.layers.getD l [] ++ [some hd])
      else if L < st.layers.length then st.layers[L]?
      else if L < st.layers.length + (l + 1) ∧ ¬ l < st.layers.length then some []
      else none := by
    intro L
    exact add_node_to_level_get _ hd l L
  refine ⟨⟨?_, ?_⟩, by rw [hlvl]; exact mupd_self _ _ _,
    fun v hv => by rw [hlvl]; exact mupd_other _ _ _ _ hv⟩
  · -- every levelled vertex sits exactly once in its row
    intro v l' hv
    rw [hlvl] at hv
    by_cases hveq : v = hd
    · subst hveq
      rw [mupd_self] at hv
      injection hv with hv
      subst hv
      refine ⟨by omega, ?_⟩
      rw [hlay l, if_pos rfl]
      refine ⟨_, rfl, ?_⟩
      rw [List.count_append]
      have hz : (st.layers.getD l []).count (some v) = 0 := by
        rw [List.count_eq_zero]
        intro hmem
        by_cases hl : l < st.layers.length
        · rw [List.getD_eq_getElem?_getD, List.getElem?_eq_getElem hl] at hmem
          exact hnorow l _ (List.getElem?_eq_getElem hl) hmem
        · rw [List.getD_eq_getElem?_getD, List.getElem?_eq_none (Nat.le_of_not_lt hl)] at hmem
          cases hmem
      rw [hz]
      simp
    · rw [mupd_other _ _ _ _ hveq] at hv
      obtain ⟨h1, row, hrow, hcount⟩ := hpos v l' hv
      refine ⟨h1, ?_⟩
      by_cases hleq : l' = l
      · subst hleq
        rw [hlay l, if_pos rfl]
        have hlen : l < st.layers.length := (List.getElem?_eq_some_iff.mp hrow).1
        have hgd : st.layers.getD l [] = row := by
          rw [List.getD_eq_getElem?_getD, hrow]
          rfl
        refine ⟨_, rfl, ?_⟩
        rw [hgd, List.count_append, hcount]
        have : ([some hd] : List (Option Nat)).count (some v) = 0 := by
          rw [List.count_eq_zero]
          intro hmem
          simp at hmem
          exact hveq hmem
        rw [this]
      · rw [hlay l', if_neg hleq, if_pos (List.getElem?_eq_some_iff.mp hrow).1]
        exact ⟨row, hrow, hcount⟩
  · -- every occupied slot carries a levelled vertex of the row's index
    intro L row x hrow hmem
    rw [hlay L] at hrow
    by_cases hLeq : L = l
    · subst hLeq
      rw [if_pos rfl] at hrow
      injection hrow with hrow
      subst hrow
      rcases List.mem_append.mp hmem with hold | hnew
      · have hgd : ∃ row0, st.layers[l]? = some row0 ∧ some x ∈ row0 := by
          by_cases hl : l < st.layers.length
          · refine ⟨_, List.getElem?_eq_getElem hl, ?_⟩
            rw [List.getD_eq_getElem?_getD, List.getElem?_eq_getElem hl] at hold
            exact hold
          · rw [List.getD_eq_getElem?_getD, List.getElem?_eq_none (Nat.le_of_not_lt hl)] at hold
            cases hold
        obtain ⟨row0, hrow0, hx0⟩ := hgd
        obtain ⟨hxn, hxl⟩ := hslots l row0 x hrow0 hx0
        have hxhd : x ≠ hd := by
          intro hc
          rw [hc, hnone] at hxl
          cases hxl
        rw [hlvl]
        exact ⟨hxn, by rw [mupd_other _ _ _ _ hxhd]; exact hxl⟩
      · simp at hnew
        subst hnew
        rw [hlvl]
        exact ⟨hhd, mupd_self _ _ _⟩
    · rw [if_neg hLeq] at hrow
      by_cases hl1 : L < st.layers.length
      · rw [if_pos hl1] at hrow
        obtain ⟨hxn, hxl⟩ := hslots L row x hrow hmem
        have hxhd : x ≠ hd := by
          intro hc
          rw [hc, hnone] at hxl
          cases hxl
        rw [hlvl]
        exact ⟨hxn, by rw [mupd_other _ _ _ _ hxhd]; exact hxl⟩
      · rw [if_neg hl1] at hrow
        split at hrow
        · injection hrow with hrow
          subst hrow
          cases hmem
        · cases hrow

/-- The levelling fold establishes the grid core over a duplicate-free list
of fresh vertices, assigning a level to each of them and to nothing else. -/
theorem arrange_grid_fold (g : DiGraph) :
    ∀ (todo : List Nat) (st : GState),
      (∀ v ∈ todo, v < g.n) →
      GridCore g st →
      (∀ v ∈ todo, st.level_of v = none) →
      todo.Nodup →
      GridCore g (todo.foldl (arrange_node g) st) ∧
      (∀ v, v ∉ todo → (todo.foldl (arrange_node g) st).level_of v = st.level_of v) ∧
      (∀ v ∈ todo, ((todo.foldl (arrange_node g) st).level_of v).isSome) := by
  intro todo
  induction todo with
  | nil =>
    intro st _ hc _ _
    exact ⟨hc, fun v _ => rfl, fun v hv => absurd hv (by simp)⟩
  | cons hd tl ih =>
    intro st hlt hc hnone hnd
    have hhd : hd < g.n := hlt hd (by simp)
    obtain ⟨hc', hhdlvl, hother⟩ :=
      arrange_node_gridcore g st hd hhd (hnone hd (by simp)) hc
    have hnd' : tl.Nodup := (List.nodup_cons.mp hnd).2
    have hhdtl : hd ∉ tl := (List.nodup_cons.mp hnd).1
    have hnone' : ∀ v ∈ tl, (arrange_node g st hd).level_of v = none := by
      intro v hv
      rw [hother v (fun hc0 => hhdtl (hc0 ▸ hv))]
      exact hnone v (by simp [hv])
    obtain ⟨hgc, hpres, htot⟩ := ih (arrange_node g st hd)
      (fun v hv => hlt v (by simp [hv])) hc' hnone' hnd'
    refine ⟨hgc, ?_, ?_⟩
    · intro v hv
      simp only [List.mem_cons] at hv
      push_neg at hv
      rw [List.foldl_cons, hpres v hv.2, hother v hv.1]
    · intro v hv
      simp only [List.mem_cons] at hv
      rcases hv with hv | hv
      · subst hv
        rw [List.foldl_cons, hpres v hhdtl, hhdlvl]
        rfl
      · exact htot v hv

theorem not_mem_filter_self (row : List (Option Nat)) (node : Nat) :
    some node ∉ row.filter (fun s => !(s == some node)) := by
  intro hmem
  have := List.of_mem_filter hmem
  simp at this

theorem count_filter_ne (row : List (Option Nat)) (v node : Nat) (h : ¬ v = node) :
    (row.filter (fun s => !(s == some node))).count (some v) = row.count (some v) := by
  apply List.count_filter
  simp [h]

/-- Phase A establishes the grid invariant and level monotonicity. -/
theorem arrange_phaseA (g : DiGraph) (ord : List Nat)
    (hE : ∀ e ∈ g.edges, e.1 < g.n ∧ e.2 < g.n)
    (hnd : ord.Nodup) (hto : TopoOrdered g.edges ord)
    (hmem : ∀ v, v ∈ ord ↔ v < g.n) :
    Grid g (arrange_nodes_in_levels g initState ord) ∧
    Mono g (arrange_nodes_in_levels g initState ord) := by
  have hinit : GridCore g initState := by
    constructor
    · intro v l hv
      cases hv
    · intro L row x hrow
      cases hrow
  obtain ⟨hgc, _, htot⟩ := arrange_grid_fold g ord initState
    (fun v hv => (hmem v).mp hv) hinit (fun v _ => rfl) hnd
  refine ⟨⟨?_, ?_, ?_⟩, ?_⟩
  · intro v hv
    exact Option.isSome_iff_exists.mp (htot v ((hmem v).mpr hv))
  · intro v l _ hl
    exact hgc.1 v l hl
  · intro L row x hrow hmx
    exact hgc.2 L row x hrow hmx
  · intro u v he lu lv hu hv
    unfold arrange_nodes_in_levels at hu hv
    have hvord : v ∈ ord := (hmem v).mpr (hE (u, v) he).2
    obtain ⟨l, hl, heq⟩ := arrange_levels_spec g ord [] initState (by simpa using hnd)
      (by simpa using hto) (by simp) (fun w _ => rfl) v (by simpa using hvord)
    rw [hv] at hl
    injection hl with hl
    have humem : lu ∈ (predecessors g v).filterMap
        (ord.foldl (arrange_node g) initState).level_of :=
      List.mem_filterMap.mpr ⟨u, (mem_predecessors g u v).mpr he, hu⟩
    have hle := @List.le_max?_getD_of_mem _ _ 0 humem
    unfold maxPredLvl at heq
    omega


/-- `w` is a successor of `v` exactly when `(v, w)` is an edge. -/
theorem mem_successors (g : DiGraph) (w v : Nat) :
    w ∈ successors g v ↔ (v, w) ∈ g.edges := by
  simp only [successors, List.mem_map, List.mem_filter]
  constructor
  · rintro ⟨e, ⟨he, h1⟩, h2⟩
    have : e = (v, w) := by
      cases e; simp at h1 h2; simp [h1, h2]
    rw [← this]; exact he
  · intro he
    exact ⟨(v, w), ⟨he, by simp⟩, rfl⟩

/-- `move_node_in_level` preserves the grid invariant and monotonicity, does
not touch the level of any other vertex, and — moving against the incoming
edges — lands the vertex at `max(predecessor levels) + 1`. -/
theorem move_node_grid (g : DiGraph) (st : GState) (node : Nat) (dir : Dir) (st' : GState)
    (hnode : node < g.n) (hg : Grid g st) (hm : Mono g st)
    (h : move_node_in_level g st node dir = some st') :
    Grid g st' ∧ Mono g st' ∧ (∀ v, ¬ v = node → st'.level_of v = st.level_of v) ∧
    (dir = .incoming → st'.level_of node =
      some ((((neighbors_directed g node .incoming).filterMap st.level_of).max?).getD 0 + 1)) := by
  obtain ⟨cur, hcur⟩ := hg.total node hnode
  obtain ⟨hcur1, row, hrow, hcount⟩ := hg.pos node cur hnode hcur
  have hLlen : cur < st.layers.length := (List.getElem?_eq_some_iff.mp hrow).1
  simp only [move_node_in_level, hcur] at h
  set nbrLvls := (neighbors_directed g node dir).filterMap st.level_of with hnl
  set newL := (match dir with
    | Dir.incoming => (nbrLvls.max?).getD 0 + 1
    | Dir.outgoing => ((nbrLvls.min?).getD st.layers.length) - 1) with hnewL
  have hnewL1 : 1 ≤ newL ∧
      (∀ w lw, (node, w) ∈ g.edges → st.level_of w = some lw → newL < lw) ∧
      (∀ p lp, (p, node) ∈ g.edges → st.level_of p = some lp → lp < newL) := by
    cases dir with
    | incoming =>
      have hNe : newL = (nbrLvls.max?).getD 0 + 1 := by rw [hnewL]
      have hle : newL ≤ cur := by
        rw [hNe]
        cases hmax : nbrLvls.max? with
        | none => simpa using hcur1
        | some m =>
          obtain ⟨hmmem, -⟩ := List.max?_eq_some_iff'.mp hmax
          obtain ⟨p, hpmem, hplvl⟩ := List.mem_filterMap.mp hmmem
          have hpe : (p, node) ∈ g.edges := (mem_predecessors g p node).mp hpmem
          have := hm p node hpe m cur hplvl hcur
          simpa using this
      refine ⟨by omega, ?_, ?_⟩
      · intro w lw hw hlw
        have := hm node w hw cur lw hcur hlw
        omega
      · intro p lp hp hlp
        have hmemp : lp ∈ nbrLvls :=
          List.mem_filterMap.mpr ⟨p, (mem_predecessors g p node).mpr hp, hlp⟩
        have := @List.le_max?_getD_of_mem _ _ 0 hmemp
        rw [hNe]
        omega
    | outgoing =>
      have hNe : newL = ((nbrLvls.min?).getD st.layers.length) - 1 := by rw [hnewL]
      have hmemsucc : ∀ w lw, (node, w) ∈ g.edges → st.level_of w = some lw →
          lw ∈ nbrLvls := by
        intro w lw hw hlw
        exact List.mem_filterMap.mpr ⟨w, (mem_successors g w node).mpr hw, hlw⟩
      cases hmin : nbrLvls.min? with
      | none =>
        have hnil : nbrLvls = [] := List.min?_eq_none_iff.mp hmin
        have hNe2 : newL = st.layers.length - 1 := by rw [hNe, hmin]; rfl
        refine ⟨by omega, ?_, ?_⟩
        · intro w lw hw hlw
          have := hmemsucc w lw hw hlw
          rw [hnil] at this
          cases this
        · intro p lp hp hlp
          have := hm p node hp lp cur hlp hcur
          omega
      | some m =>
        have hNe2 : newL = m - 1 := by rw [hNe, hmin]; rfl
        obtain ⟨hmmem, hmle⟩ := List.min?_eq_some_iff'.mp hmin
        obtain ⟨w0, hw0mem, hw0lvl⟩ := List.mem_filterMap.mp hmmem
        have hw0e : (node, w0) ∈ g.edges := (mem_successors g w0 node).mp hw0mem
        have hcurm : cur < m := hm node w0 hw0e cur m hcur hw0lvl
        refine ⟨by omega, ?_, ?_⟩
        · intro w lw hw hlw
          have := hmle lw (hmemsucc w lw hw hlw)
          omega
        · intro p lp hp hlp
          have := hm p node hp lp cur hlp hcur
          omega
  obtain ⟨hN1, hNsucc, hNpred⟩ := hnewL1
  have hNcur : cur ≤ newL ∨ newL ≤ cur := by omega
  split at h
  next heq =>
    injection h with h
    subst h
    refine ⟨hg, hm, fun v _ => rfl, fun hdir => ?_⟩
    subst hdir
    rw [hcur, heq, hnewL]
  next hne =>
  rw [hrow] at h
  split at h
  next heq2 => cases heq2
  next row2 heq2 =>
  injection heq2 with heq2
  subst heq2
  injection h with h
  set fRow := row.filter (fun s => !(s == some node)) with hfRow
  set st1 : GState := { st with layers := st.layers.set cur fRow } with hst1
  have hst'lvl : st'.level_of = mupd st.level_of node newL := by
    rw [← h]
    simp only [add_node_to_level_level_of]
  have hst1len : st1.layers.length = st.layers.length := by
    simp [hst1]
  have hst'lay : ∀ L, st'.layers[L]? =
      if L = newL then some (st1.layers.getD newL [] ++ [some node])
      else if L < st1.layers.length then st1.layers[L]?
      else if L < st1.layers.length + (newL + 1) ∧ ¬ newL < st1.layers.length then some []
      else none := by
    intro L
    rw [← h]
    exact add_node_to_level_get st1 node newL L
  have hst1get : ∀ L, st1.layers[L]? = if L = cur then some fRow else st.layers[L]? := by
    intro L
    by_cases hLc : L = cur
    · subst hLc
      simp [hst1, List.getElem?_set_eq hLlen]
    · simp [hst1, List.getElem?_set_ne (fun hc => hLc hc.symm), hLc]
  have hnode_only : ∀ (L : Nat) (r : List (Option Nat)),
      st.layers[L]? = some r → some node ∈ r → L = cur := by
    intro L r hr hmemn
    have := (hg.slots L r node hr hmemn).2
    rw [hcur] at this
    injection this with this
    omega
  have hnode_notmem : ∀ (L : Nat) (r : List (Option Nat)),
      st1.layers[L]? = some r → some node ∉ r := by
    intro L r hr hmemn
    rw [hst1get] at hr
    by_cases hLc : L = cur
    · rw [if_pos hLc] at hr
      injection hr with hr
      subst hr
      exact not_mem_filter_self row node hmemn
    · rw [if_neg hLc] at hr
      exact hLc (hnode_only L r hr hmemn)
  refine ⟨⟨?_, ?_, ?_⟩, ?_, ?_, ?_⟩
  · -- totality
    intro v hv
    rw [hst'lvl]
    by_cases hveq : v = node
    · subst hveq
      exact ⟨newL, mupd_self _ _ _⟩
    · rw [mupd_other _ _ _ _ hveq]
      exact hg.total v hv
  · -- position and unique occurrence
    intro v l hv hl
    rw [hst'lvl] at hl
    by_cases hveq : v = node
    · subst hveq
      rw [mupd_self] at hl
      injection hl with hl
      subst hl
      refine ⟨hN1, ?_⟩
      rw [hst'lay, if_pos rfl]
      refine ⟨_, rfl, ?_⟩
      rw [List.count_append]
      have hz : (st1.layers.getD newL []).count (some v) = 0 := by
        rw [List.count_eq_zero]
        intro hmem
        by_cases hb : newL < st1.layers.length
        · exact hnode_notmem newL _ (List.getElem?_eq_getElem hb)
            (by rwa [List.getD_eq_getElem?_getD, List.getElem?_eq_getElem hb] at hmem)
        · rw [List.getD_eq_getElem?_getD, List.getElem?_eq_none (Nat.le_of_not_lt hb)] at hmem
          cases hmem
      rw [hz]
      simp
    · rw [mupd_other _ _ _ _ hveq] at hl
      obtain ⟨h1, r, hr, hcnt⟩ := hg.pos v l hv hl
      have hrlen : l < st.layers.length := (List.getElem?_eq_some_iff.mp hr).1
      refine ⟨h1, ?_⟩
      rw [hst'lay]
      by_cases hleq : l = newL
      · subst hleq
        rw [if_pos rfl]
        refine ⟨_, rfl, ?_⟩
        have hlc : ¬ newL = cur := fun hc => hne (by omega)
        have hgd : st1.layers.getD newL [] = r := by
          rw [List.getD_eq_getElem?_getD, hst1get, if_neg hlc, hr]
          rfl
        rw [hgd, List.count_append, hcnt]
        have hz1 : ([some node] : List (Option Nat)).count (some v) = 0 := by
          rw [List.count_eq_zero]
          intro hmem
          simp at hmem
          exact hveq hmem
        rw [hz1]
      · rw [if_neg hleq, if_pos (by omega : l < st1.layers.length), hst1get]
        by_cases hlc : l = cur
        · subst hlc
          rw [if_pos rfl]
          refine ⟨fRow, rfl, ?_⟩
          have hreq : r = row := by
            rw [hr] at hrow
            injection hrow
          subst hreq
          rw [hfRow, count_filter_ne r v node hveq]
          exact hcnt
        · rw [if_neg hlc]
          exact ⟨r, hr, hcnt⟩
  · -- slots
    intro L r x hr hmx
    rw [hst'lay] at hr
    by_cases hLeq : L = newL
    · rw [if_pos hLeq] at hr
      injection hr with hr
      subst hr
      rcases List.mem_append.mp hmx with hold | hnew
      · have hex : ∃ r0, st1.layers[newL]? = some r0 ∧ some x ∈ r0 := by
          by_cases hb : newL < st1.layers.length
          · exact ⟨_, List.getElem?_eq_getElem hb,
              by rwa [List.getD_eq_getElem?_getD, List.getElem?_eq_getElem hb] at hold⟩
          · rw [List.getD_eq_getElem?_getD, List.getElem?_eq_none (Nat.le_of_not_lt hb)] at hold
            cases hold
        obtain ⟨r0, hr0, hx0⟩ := hex
        have hxnode : ¬ x = node := by
          intro hc
          subst hc
          exact hnode_notmem newL r0 hr0 hx0
        rw [hst1get] at hr0
        have hxfacts : x < g.n ∧ st.level_of x = some newL := by
          by_cases hlc : newL = cur
          · exact absurd hlc (fun hc => hne (by omega))
          · rw [if_neg hlc] at hr0
            exact hg.slots newL r0 x hr0 hx0
        rw [hst'lvl, hLeq]
        exact ⟨hxfacts.1, by rw [mupd_other _ _ _ _ hxnode]; exact hxfacts.2⟩
      · simp at hnew
        subst hnew
        rw [hst'lvl, hLeq]
        exact ⟨hnode, mupd_self _ _ _⟩
    · rw [if_neg hLeq] at hr
      by_cases hb : L < st1.layers.length
      · rw [if_pos hb, hst1get] at hr
        by_cases hlc : L = cur
        · rw [if_pos hlc] at hr
          injection hr with hr
          subst hr
          have hxnode : ¬ x = node := by
            intro hc
            subst hc
            exact not_mem_filter_self row x hmx
          have hxrow : some x ∈ row := List.mem_of_mem_filter hmx
          have hs := hg.slots L row x (by rw [hlc]; exact hrow) hxrow
          rw [hst'lvl]
          exact ⟨hs.1, by rw [mupd_other _ _ _ _ hxnode]; exact hs.2⟩
        · rw [if_neg hlc] at hr
          have hs := hg.slots L r x hr hmx
          have hxnode : ¬ x = node := by
            intro hc
            subst hc
            exact hlc (hnode_only L r hr hmx)
          rw [hst'lvl]
          exact ⟨hs.1, by rw [mupd_other _ _ _ _ hxnode]; exact hs.2⟩
      · rw [if_neg hb] at hr
        split at hr
        · injection hr with hr
          subst hr
          cases hmx
        · cases hr
  · -- monotonicity
    intro a b he la lb hla hlb
    rw [hst'lvl] at hla hlb
    by_cases hae : a = node
    · rw [hae] at he hla
      rw [mupd_self] at hla
      injection hla with hla
      by_cases hbe : b = node
      · rw [hbe] at he
        have := hm node node he cur cur hcur hcur
        omega
      · rw [mupd_other _ _ _ _ hbe] at hlb
        have := hNsucc b lb he hlb
        omega
    · rw [mupd_other _ _ _ _ hae] at hla
      by_cases hbe : b = node
      · rw [hbe] at he hlb
        rw [mupd_self] at hlb
        injection hlb with hlb
        have := hNpred a la he hla
        omega
      · rw [mupd_other _ _ _ _ hbe] at hlb
        exact hm a b he la lb hla hlb
  · intro v hv
    rw [hst'lvl]
    exact mupd_other _ _ _ _ hv
  · intro hdir
    rw [hst'lvl, mupd_self]
    subst hdir
    rw [hnewL]

/-- A whole relaxation phase preserves the grid invariant and monotonicity,
and leaves the levels of unprocessed vertices alone. -/
theorem phase_fold_grid (g : DiGraph) (dir : Dir) :
    ∀ (l : List Nat) (st st' : GState),
      (∀ v ∈ l, v < g.n) → Grid g st → Mono g st →
      l.foldlM (fun s v => move_node_in_level g s v dir) st = some st' →
      (Grid g st' ∧ Mono g st') ∧ ∀ v, v ∉ l → st'.level_of v = st.level_of v := by
  intro l
  induction l with
  | nil =>
    intro st st' _ hg hm h
    simp only [List.foldlM] at h
    injection h with h
    subst h
    exact ⟨⟨hg, hm⟩, fun _ _ => rfl⟩
  | cons hd tl ih =>
    intro st st' hlt hg hm h
    simp only [List.foldlM] at h
    cases hx : move_node_in_level g st hd dir with
    | none => rw [hx] at h; cases h
    | some st1 =>
      rw [hx] at h
      obtain ⟨hg1, hm1, hpres, -⟩ :=
        move_node_grid g st hd dir st1 (hlt hd (by simp)) hg hm hx
      obtain ⟨hmain, hlvl⟩ := ih st1 st' (fun v hv => hlt v (by simp [hv])) hg1 hm1 h
      refine ⟨hmain, ?_⟩
      intro v hv
      simp only [List.mem_cons] at hv
      push_neg at hv
      rw [hlvl v hv.2, hpres v hv.1]

/-- After the move-up phase every source sits at level 1. -/
theorem phaseC_sources (g : DiGraph) :
    ∀ (l : List Nat) (st st' : GState),
      (∀ v ∈ l, v < g.n) → l.Nodup → Grid g st → Mono g st →
      l.foldlM (fun s v => move_node_in_level g s v .incoming) st = some st' →
      ∀ u ∈ l, predecessors g u = [] → st'.level_of u = some 1 := by
  intro l
  induction l with
  | nil =>
    intro st st' _ _ _ _ _ u hu
    exact absurd hu (by simp)
  | cons hd tl ih =>
    intro st st' hlt hnd hg hm h u hu hpu
    simp only [List.foldlM] at h
    cases hx : move_node_in_level g st hd .incoming with
    | none => rw [hx] at h; cases h
    | some st1 =>
      rw [hx] at h
      obtain ⟨hg1, hm1, hpres, hinc⟩ :=
        move_node_grid g st hd .incoming st1 (hlt hd (by simp)) hg hm hx
      simp only [List.mem_cons] at hu
      rcases hu with hu | hu
      · subst hu
        have hval : st1.level_of u = some 1 := by
          rw [hinc rfl]
          simp [neighbors_directed, hpu]
        obtain ⟨-, hlvl⟩ := phase_fold_grid g .incoming tl st1 st'
          (fun v hv => hlt v (by simp [hv])) hg1 hm1 h
        rw [hlvl u (List.nodup_cons.mp hnd).1, hval]
      · exact ih st1 st' (fun v hv => hlt v (by simp [hv])) (List.nodup_cons.mp hnd).2
          hg1 hm1 h u hu hpu

/-- The Centerer preserves the grid invariant and monotonicity and does not
touch `level_of`. -/
theorem center_levels_grid (g : DiGraph) (st st' : GState)
    (hg : Grid g st) (h : center_levels st = some st') :
    Grid g st' ∧ st'.level_of = st.level_of := by
  unfold center_levels at h
  cases hmax : (st.layers.map List.length).max? with
  | none => rw [hmax] at h; cases h
  | some maxLen =>
    rw [hmax] at h
    injection h with h
    have hlay : ∀ L : Nat, st'.layers[L]? = (st.layers[L]?).map (fun row =>
        (List.replicate ((maxLen - row.length) / 2 + 1) none ++ row)
          ++ List.replicate (maxLen / 2) none) := by
      intro L
      rw [← h]
      exact List.getElem?_map _ _ _
    have hlvl : st'.level_of = st.level_of := by rw [← h]
    refine ⟨⟨?_, ?_, ?_⟩, hlvl⟩
    · intro v hv
      rw [hlvl]
      exact hg.total v hv
    · intro v l hv hl
      rw [hlvl] at hl
      obtain ⟨h1, row, hrow, hcnt⟩ := hg.pos v l hv hl
      refine ⟨h1, ?_⟩
      rw [hlay, hrow]
      refine ⟨_, rfl, ?_⟩
      rw [List.count_append, List.count_append, hcnt]
      simp [List.count_replicate]
    · intro L r x hr hmx
      rw [hlay] at hr
      cases hrow : st.layers[L]? with
      | none => rw [hrow] at hr; cases hr
      | some row =>
        rw [hrow] at hr
        injection hr with hr
        subst hr
        have hxrow : some x ∈ row := by
          rcases List.mem_append.mp hmx with h1 | h2
          · rcases List.mem_append.mp h1 with h3 | h4
            · have := List.eq_of_mem_replicate h3
              cases this
            · exact h4
          · have := List.eq_of_mem_replicate h2
            cases this
        have := hg.slots L row x hrow hxrow
        rw [hlvl]
        exact this

theorem fill_row_aux_not_mem :
    ∀ (row : List (Option Nat)) (n : Nat) (m : NMap) (v : Nat),
      some v ∉ row →
      ((row.enumFrom n).foldl
        (fun m p => match p.2 with | some w => mupd m w p.1 | none => m) m) v = m v := by
  intro row
  induction row with
  | nil => intro n m v _; rfl
  | cons a rest ih =>
    intro n m v hnm
    rw [List.enumFrom_cons, List.foldl_cons]
    have hna : ¬ a = some v := fun hc => hnm (hc ▸ List.mem_cons_self _ _)
    cases a with
    | none => exact ih (n + 1) m v (fun hc => hnm (List.mem_cons.mpr (Or.inr hc)))
    | some w =>
      have hwv : ¬ v = w := fun hc => hna (by rw [hc])
      have := ih (n + 1) (mupd m w n) v (fun hc => hnm (List.mem_cons.mpr (Or.inr hc)))
      exact this.trans (mupd_other _ _ _ _ hwv)

theorem fill_row_aux_unique :
    ∀ (row : List (Option Nat)) (n : Nat) (m : NMap) (v i : Nat),
      row.count (some v) = 1 → row[i]? = some (some v) →
      ((row.enumFrom n).foldl
        (fun m p => match p.2 with | some w => mupd m w p.1 | none => m) m) v = some (n + i) := by
  intro row
  induction row with
  | nil => intro n m v i _ hi; simp at hi
  | cons a rest ih =>
    intro n m v i hcnt hi
    rw [List.enumFrom_cons, List.foldl_cons]
    by_cases hav : a = some v
    · subst hav
      rw [List.count_cons_self] at hcnt
      have hrest : some v ∉ rest := List.count_eq_zero.mp (by omega)
      have hi0 : i = 0 := by
        cases i with
        | zero => rfl
        | succ k =>
          rw [List.getElem?_cons_succ] at hi
          exact absurd (List.mem_iff_getElem?.mpr ⟨k, hi⟩) hrest
      subst hi0
      have := fill_row_aux_not_mem rest (n + 1) (mupd m v n) v hrest
      exact this.trans (by rw [mupd_self]; rfl)
    · have hcnt' : rest.count (some v) = 1 := by
        rwa [List.count_cons_of_ne (fun hc => hav hc.symm)] at hcnt
      cases i with
      | zero =>
        rw [List.getElem?_cons_zero] at hi
        injection hi with hi
        exact absurd hi hav
      | succ k =>
        rw [List.getElem?_cons_succ] at hi
        have h2 : n + (k + 1) = (n + 1) + k := by omega
        rw [h2]
        cases a with
        | none => exact ih (n + 1) m v k hcnt' hi
        | some w => exact ih (n + 1) (mupd m w n) v k hcnt' hi

theorem fill_index_row_not_mem (m : NMap) (row : List (Option Nat)) (v : Nat)
    (h : some v ∉ row) : fill_index_row m row v = m v :=
  fill_row_aux_not_mem row 0 m v h

theorem fill_index_row_unique (m : NMap) (row : List (Option Nat)) (v i : Nat)
    (hcnt : row.count (some v) = 1) (hi : row[i]? = some (some v)) :
    fill_index_row m row v = some i := by
  have := fill_row_aux_unique row 0 m v i hcnt hi
  simpa using this

theorem fill_rows_not_mem :
    ∀ (rows : List (List (Option Nat))) (m : NMap) (v : Nat),
      (∀ (L : Nat) (row : List (Option Nat)), rows[L]? = some row → some v ∉ row) →
      (rows.foldl fill_index_row m) v = m v := by
  intro rows
  induction rows with
  | nil => intro m v _; rfl
  | cons r rest ih =>
    intro m v hall
    rw [List.foldl_cons]
    have h1 := ih (fill_index_row m r) v
      (fun L row hr => hall (L + 1) row (by rwa [List.getElem?_cons_succ]))
    rw [h1]
    exact fill_index_row_not_mem m r v (hall 0 r (by rw [List.getElem?_cons_zero]))

theorem fill_layers_get :
    ∀ (rows : List (List (Option Nat))) (m : NMap) (v L i : Nat)
      (row : List (Option Nat)),
      rows[L]? = some row → row[i]? = some (some v) → row.count (some v) = 1 →
      (∀ (L2 : Nat) (row2 : List (Option Nat)),
        rows[L2]? = some row2 → ¬ L2 = L → some v ∉ row2) →
      (rows.foldl fill_index_row m) v = some i := by
  intro rows
  induction rows with
  | nil => intro m v L i row hL; simp at hL
  | cons r rest ih =>
    intro m v L i row hL hi hcnt hothers
    rw [List.foldl_cons]
    cases L with
    | zero =>
      rw [List.getElem?_cons_zero] at hL
      injection hL with hL
      rw [← hL] at hi hcnt
      have hrest : ∀ (L2 : Nat) (row2 : List (Option Nat)),
          rest[L2]? = some row2 → some v ∉ row2 := by
        intro L2 row2 h2
        exact hothers (L2 + 1) row2 (by rwa [List.getElem?_cons_succ]) (by omega)
      have h1 := fill_rows_not_mem rest (fill_index_row m r) v hrest
      rw [h1]
      exact fill_index_row_unique m r v i hcnt hi
    | succ L2 =>
      rw [List.getElem?_cons_succ] at hL
      exact ih (fill_index_row m r) v L2 i row hL hi hcnt
        (fun L3 row3 h3 hne3 =>
          hothers (L3 + 1) row3 (by rwa [List.getElem?_cons_succ]) (by omega))

/-- `fill_index` turns the grid invariant into the synchrony invariant,
leaving grid and levels untouched. -/
theorem fill_index_sync (g : DiGraph) (st : GState) (hg : Grid g st) :
    Sync g (fill_index st) ∧ (fill_index st).level_of = st.level_of ∧
      (fill_index st).layers = st.layers := by
  have hidx : ∀ (v l i : Nat) (row : List (Option Nat)), st.layers[l]? = some row →
      row[i]? = some (some v) → row.count (some v) = 1 → st.level_of v = some l →
      (fill_index st).index_of v = some i := by
    intro v l i row hrow hi hcnt hl
    apply fill_layers_get st.layers st.index_of v l i row hrow hi hcnt
    intro L2 row2 h2 hne hmem
    have hx := (hg.slots L2 row2 v h2 hmem).2
    rw [hl] at hx
    injection hx with hx
    exact hne hx.symm
  refine ⟨⟨?_, ?_, ?_⟩, rfl, rfl⟩
  · intro v hv
    obtain ⟨l, hl⟩ := hg.total v hv
    obtain ⟨-, row, hrow, hcnt⟩ := hg.pos v l hv hl
    obtain ⟨i, hi, -⟩ := count_one_unique_pos row (some v) hcnt
    exact ⟨l, i, hl, hidx v l i row hrow hi hcnt hl⟩
  · intro v l i hv hl hiv
    obtain ⟨-, row, hrow, hcnt⟩ := hg.pos v l hv hl
    obtain ⟨j, hj, -⟩ := count_one_unique_pos row (some v) hcnt
    have := hidx v l j row hrow hj hcnt hl
    rw [hiv] at this
    injection this with this
    exact ⟨row, hrow, by rw [this]; exact hj⟩
  · intro L row i x hrow hi
    replace hrow : st.layers[L]? = some row := hrow
    have hmem : some x ∈ row := List.mem_iff_getElem?.mpr ⟨i, hi⟩
    obtain ⟨hxn, hxl⟩ := hg.slots L row x hrow hmem
    obtain ⟨-, row2, hrow2, hcnt⟩ := hg.pos x L hxn hxl
    have hroweq : row2 = row := by
      rw [hrow] at hrow2
      injection hrow2 with h
      exact h.symm
    subst hroweq
    obtain ⟨j, hj, huniq⟩ := count_one_unique_pos row2 (some x) hcnt
    have hji : i = j := huniq i hi
    subst hji
    exact ⟨hxn, hxl, hidx x L i row2 hrow2 hj hcnt hxl⟩

/-- One crossing-reduction slot step preserves synchrony; the snapshot row
pins both partners to level `L`. -/
theorem crossing_slot_sync (g : DiGraph) (st : GState) (L : Nat)
    (snapRow : List (Option Nat)) (slot : Option Nat) (st' : GState)
    (base : Nat → Option Nat)
    (hs : Sync g st) (hbase : st.level_of = base)
    (hsnap : ∀ x : Nat, some x ∈ snapRow → x < g.n ∧ base x = some L)
    (hslotm : ∀ x : Nat, slot = some x → some x ∈ snapRow)
    (h : crossing_slot g st L snapRow slot = some st') :
    Sync g st' ∧ st'.level_of = base := by
  cases slot with
  | none =>
    simp only [crossing_slot] at h
    injection h with h
    subst h
    exact ⟨hs, hbase⟩
  | some node =>
    obtain ⟨hn, hbl⟩ := hsnap node (hslotm node rfl)
    simp only [crossing_slot] at h
    cases hidx : st.index_of node with
    | none => rw [hidx] at h; cases h
    | some i =>
      simp only [hidx] at h
      by_cases hi0 : i = 0
      · rw [if_pos hi0] at h
        cases h
      rw [if_neg hi0] at h
      cases hsr : snapRow[i - 1]? with
      | none => simp only [hsr] at h; cases h
      | some s =>
        cases s with
        | none =>
          simp only [hsr] at h
          injection h with h
          subst h
          exact ⟨hs, hbase⟩
        | some left =>
          simp only [hsr] at h
          obtain ⟨hln, hbll⟩ := hsnap left (List.mem_iff_getElem?.mpr ⟨i - 1, hsr⟩)
          have h1 := reduce_crossings_sync g st node left L st' hs hn hln
            (by rw [hbase]; exact hbl) (by rw [hbase]; exact hbll) h
          exact ⟨h1.1, by rw [h1.2, hbase]⟩

/-- One crossing-reduction row pass preserves synchrony. -/
theorem crossing_row_sync (g : DiGraph) (st : GState) (L : Nat)
    (snapRow : List (Option Nat)) (st' : GState) (base : Nat → Option Nat)
    (hs : Sync g st) (hbase : st.level_of = base)
    (hsnap : ∀ x : Nat, some x ∈ snapRow → x < g.n ∧ base x = some L)
    (h : crossing_row g st L snapRow = some st') :
    Sync g st' ∧ st'.level_of = base := by
  unfold crossing_row at h
  refine foldlM_inv _ (fun s => Sync g s ∧ s.level_of = base) _ st st' ?_ ⟨hs, hbase⟩ h
  intro slot hmem t t' hP hstep
  exact crossing_slot_sync g t L snapRow slot t' base hP.1 hP.2 hsnap
    (fun x hx => hx ▸ List.mem_of_mem_drop hmem) hstep

/-- One full crossing-reduction sweep preserves synchrony and never touches
`level_of`. -/
theorem crossing_sweep_sync (g : DiGraph) (st st' : GState) (hs : Sync g st)
    (h : crossing_sweep g st = some st') : Sync g st' ∧ st'.level_of = st.level_of := by
  unfold crossing_sweep at h
  refine foldlM_inv _ (fun s => Sync g s ∧ s.level_of = st.level_of) _ st st' ?_ ⟨hs, rfl⟩ h
  intro p hp t t' hP hstep
  have hrow : st.layers[p.1]? = some p.2 := List.mem_enum_iff_getElem?.mp hp
  refine crossing_row_sync g t p.1 p.2 t' st.level_of hP.1 hP.2 ?_ hstep
  intro x hx
  obtain ⟨j, hj⟩ := List.mem_iff_getElem?.mp hx
  have hsl := hs.slots p.1 p.2 j x hrow hj
  exact ⟨hsl.1, hsl.2.1⟩

/-- The gap-slider slot loop preserves synchrony. -/
theorem slider_slots_sync (g : DiGraph) (L : Nat) (base : Nat → Option Nat) :
    ∀ (lst : List (Option Nat)) (st : GState) (flag : Bool) (st' : GState) (flag' : Bool),
      Sync g st → st.level_of = base →
      (∀ x : Nat, some x ∈ lst → x < g.n ∧ base x = some L) →
      slider_slots g L lst st flag = some (st', flag') →
      Sync g st' ∧ st'.level_of = base := by
  intro lst
  induction lst with
  | nil =>
    intro st flag st' flag' hs hb _ h
    simp only [slider_slots] at h
    injection h with h
    rw [Prod.mk.injEq] at h
    rw [← h.1]
    exact ⟨hs, hb⟩
  | cons a rest ih =>
    intro st flag st' flag' hs hb hsnap h
    cases a with
    | none =>
      simp only [slider_slots] at h
      exact ih st flag st' flag' hs hb
        (fun x hx => hsnap x (List.mem_cons.mpr (Or.inr hx))) h
    | some node =>
      obtain ⟨hn, hbl⟩ := hsnap node (List.mem_cons.mpr (Or.inl rfl))
      cases hsw : swap_with_none_neighbors g st node L with
      | none => simp only [slider_slots, hsw] at h; cases h
      | some p =>
        simp only [slider_slots, hsw] at h

        obtain ⟨hs1, hl1⟩ := swap_with_none_sync g st node L p.1 p.2 hs hn
          (by rw [hb]; exact hbl) (by rw [hsw])
        exact ih p.1 (if p.2 then flag else false) st' flag' hs1 (by rw [hl1, hb])
          (fun x hx => hsnap x (List.mem_cons.mpr (Or.inr hx))) h

/-- The slider's repeat loop preserves synchrony. -/
theorem slider_repeat_sync (g : DiGraph) (L : Nat) (base : Nat → Option Nat)
    (snapRow : List (Option Nat))
    (hsnap : ∀ x : Nat, some x ∈ snapRow → x < g.n ∧ base x = some L) :
    ∀ (fuel : Nat) (st : GState) (flag : Bool) (st' : GState) (flag' : Bool),
      Sync g st → st.level_of = base →
      slider_repeat g L snapRow fuel st flag = some (st', flag') →
      Sync g st' ∧ st'.level_of = base := by
  intro fuel
  induction fuel with
  | zero =>
    intro st flag st' flag' hs hb h
    simp only [slider_repeat] at h
    injection h with h
    rw [Prod.mk.injEq] at h
    rw [← h.1]
    exact ⟨hs, hb⟩
  | succ n ih =>
    intro st flag st' flag' hs hb h
    cases hsl : slider_slots g L snapRow st true with
    | none => simp only [slider_repeat, hsl] at h; cases h
    | some p =>
      simp only [slider_repeat, hsl] at h
      obtain ⟨hs1, hb1⟩ := slider_slots_sync g L base snapRow st true p.1 p.2 hs hb hsnap
        (by rw [hsl])
      split at h
      · injection h with h
        rw [Prod.mk.injEq] at h
        rw [← h.1]
        exact ⟨hs1, hb1⟩
      · exact ih p.1 p.2 st' flag' hs1 hb1 h

/-- One slider sweep preserves synchrony and never touches `level_of`. -/
theorem slider_sweep_sync (g : DiGraph) (st : GState) (flag : Bool)
    (st' : GState) (flag' : Bool) (hs : Sync g st)
    (h : slider_sweep g st flag = some (st', flag')) :
    Sync g st' ∧ st'.level_of = st.level_of := by
  unfold slider_sweep at h
  have hmain := foldlM_inv _
    (fun (p : GState × Bool) => Sync g p.1 ∧ p.1.level_of = st.level_of) _
    (st, flag) (st', flag') ?_ ⟨hs, rfl⟩ h
  · exact hmain
  intro q hq t t' hP hstep
  have hrow : st.layers[q.1]? = some q.2 := List.mem_enum_iff_getElem?.mp hq
  have hsnap : ∀ x : Nat, some x ∈ q.2 → x < g.n ∧ st.level_of x = some q.1 := by
    intro x hx
    obtain ⟨j, hj⟩ := List.mem_iff_getElem?.mp hx
    have hsl := hs.slots q.1 q.2 j x hrow hj
    exact ⟨hsl.1, hsl.2.1⟩
  exact slider_repeat_sync g q.1 st.level_of q.2 hsnap q.2.length t.1 t.2 t'.1 t'.2
    hP.1 hP.2 hstep

/-- The two-round slider phase preserves synchrony. -/
theorem slider_phase_sync (g : DiGraph) (st st' : GState) (hs : Sync g st)
    (h : slider_phase g st = some st') : Sync g st' ∧ st'.level_of = st.level_of := by
  unfold slider_phase at h
  cases h1 : slider_sweep g st true with
  | none => rw [h1] at h; cases h
  | some p =>
    simp only [h1] at h
    obtain ⟨hs1, hb1⟩ := slider_sweep_sync g st true p.1 p.2 hs (by rw [h1])
    split at h
    · injection h with h
      rw [← h]
      exact ⟨hs1, hb1⟩
    · cases h2 : slider_sweep g p.1 true with
      | none => simp only [h2] at h; cases h
      | some q =>
        simp only [h2] at h
        injection h with h
        obtain ⟨hs2, hb2⟩ := slider_sweep_sync g p.1 true q.1 q.2 hs1 (by rw [h2])
        rw [← h]
        exact ⟨hs2, by rw [hb2, hb1]⟩

/-- One round of the refinement loop preserves synchrony. -/
theorem refine_round_sync (g : DiGraph) (st st' : GState) (hs : Sync g st)
    (h : refine_round g st = some st') : Sync g st' ∧ st'.level_of = st.level_of := by
  unfold refine_round at h
  cases h1 : crossing_sweep g st with
  | none => rw [h1] at h; cases h
  | some st1 =>
    simp only [h1] at h
    obtain ⟨hs1, hb1⟩ := crossing_sweep_sync g st st1 hs h1
    cases h2 : crossing_sweep g st1 with
    | none => simp only [h2] at h; cases h
    | some st2 =>
      simp only [h2] at h
      obtain ⟨hs2, hb2⟩ := crossing_sweep_sync g st1 st2 hs1 h2
      obtain ⟨hs3, hb3⟩ := slider_phase_sync g st2 st' hs2 h
      exact ⟨hs3, by rw [hb3, hb2, hb1]⟩

/-- The whole ten-round refinement loop preserves synchrony and never touches
`level_of`. -/
theorem refine_loop_sync (g : DiGraph) :
    ∀ (k : Nat) (st st' : GState), Sync g st →
      refine_loop g k st = some st' → Sync g st' ∧ st'.level_of = st.level_of := by
  intro k
  induction k with
  | zero =>
    intro st st' hs h
    simp only [refine_loop] at h
    injection h with h
    rw [← h]
    exact ⟨hs, rfl⟩
  | succ n ih =>
    intro st st' hs h
    simp only [refine_loop] at h
    cases h1 : refine_round g st with
    | none => rw [h1] at h; cases h
    | some st1 =>
      simp only [h1] at h
      obtain ⟨hs1, hb1⟩ := refine_round_sync g st st1 hs h1
      obtain ⟨hs2, hb2⟩ := ih st1 st' hs1 h
      exact ⟨hs2, by rw [hb2, hb1]⟩

/-- Final occupancy ordering: along every edge both endpoints appear in the
grid and every row containing the tail lies strictly above every row
containing the head. -/
def OrderedOcc (g : DiGraph) (st : GState) : Prop :=
  ∀ u v, (u, v) ∈ g.edges →
    (∃ (L : Nat) (row : List (Option Nat)), st.layers[L]? = some row ∧ some u ∈ row) ∧
    (∃ (L : Nat) (row : List (Option Nat)), st.layers[L]? = some row ∧ some v ∈ row) ∧
    (∀ (Lu Lv : Nat) (ru rv : List (Option Nat)),
      st.layers[Lu]? = some ru → some u ∈ ru →
      st.layers[Lv]? = some rv → some v ∈ rv → Lu < Lv)

/-- Synchrony plus monotone levels force the ordered occupancy. -/
theorem sync_orderedOcc (g : DiGraph) (st : GState)
    (hE : ∀ e ∈ g.edges, e.1 < g.n ∧ e.2 < g.n)
    (hs : Sync g st) (hm : Mono g st) : OrderedOcc g st := by
  intro u v he
  obtain ⟨hu, hv⟩ := hE (u, v) he
  obtain ⟨lu, iu, hlu, hiu⟩ := hs.total u hu
  obtain ⟨rowu, hru, hslotu⟩ := hs.at_pos u lu iu hu hlu hiu
  obtain ⟨lv, iv, hlv, hiv⟩ := hs.total v hv
  obtain ⟨rowv, hrv, hslotv⟩ := hs.at_pos v lv iv hv hlv hiv
  refine ⟨⟨lu, rowu, hru, List.mem_iff_getElem?.mpr ⟨iu, hslotu⟩⟩,
          ⟨lv, rowv, hrv, List.mem_iff_getElem?.mpr ⟨iv, hslotv⟩⟩, ?_⟩
  intro Lu Lv ru rv hruL hmu hrvL hmv
  obtain ⟨ju, hju⟩ := List.mem_iff_getElem?.mp hmu
  obtain ⟨jv, hjv⟩ := List.mem_iff_getElem?.mp hmv
  have h1 := (hs.slots Lu ru ju u hruL hju).2.1
  have h2 := (hs.slots Lv rv jv v hrvL hjv).2.1
  exact hm u v he Lu Lv h1 h2

/-- The intermediate states of the roots-to-top pass, relative to the state
`st0` the pass started from: rows 2 and above are untouched, the two top rows
hold only sources, levels of non-sources are untouched and every source is at
level 1 (not yet moved) or 0 (moved). -/
structure RootsInv (g : DiGraph) (st0 st : GState) : Prop where
  high : ∀ L : Nat, 2 ≤ L → st.layers[L]? = st0.layers[L]?
  low : ∀ (L : Nat) (row : List (Option Nat)), L ≤ 1 → st.layers[L]? = some row →
    ∀ x : Nat, some x ∈ row → x < g.n ∧ predecessors g x = []
  lvl_keep : ∀ v, ¬ predecessors g v = [] → st.level_of v = st0.level_of v
  lvl_src : ∀ u, u < g.n → predecessors g u = [] →
    st.level_of u = some 1 ∨ st.level_of u = some 0
  len : st.layers.length = st0.layers.length

/-- One step of the roots-to-top pass preserves `RootsInv`; a still-unmoved
source is sent to row 0 and level 0, and row 0 only ever grows. -/
theorem roots_step_inv (g : DiGraph) (st0 st st1 : GState) (node : Nat)
    (hnode : node < g.n) (hinv : RootsInv g st0 st)
    (h : roots_step g st node = some st1) :
    RootsInv g st0 st1 ∧
    (∀ v, ¬ v = node → st1.level_of v = st.level_of v) ∧
    (∀ (row0 : List (Option Nat)), st.layers[0]? = some row0 →
      ∃ row0', st1.layers[0]? = some row0' ∧ ∀ s ∈ row0, s ∈ row0') ∧
    (predecessors g node = [] → st.level_of node = some 1 →
      (∃ row0', st1.layers[0]? = some row0' ∧ some node ∈ row0') ∧
      st1.level_of node = some 0) := by
  unfold roots_step at h
  cases hlv : st.level_of node with
  | none => rw [hlv] at h; cases h
  | some node_level =>
    simp only [hlv] at h
    split at h
    case isFalse hguard =>
      injection h with h
      subst h
      refine ⟨hinv, fun v _ => rfl, fun row0 hr0 => ⟨row0, hr0, fun s hs => hs⟩, ?_⟩
      intro hsrc hlvl1
      exfalso
      injection hlvl1 with hlvl1
      apply hguard
      refine ⟨by omega, ?_⟩
      rw [hsrc]
      rfl
    case isTrue hguard =>
      have hsrc : predecessors g node = [] := List.length_eq_zero.mp hguard.2
      have hlvl1 : node_level = 1 := by
        rcases hinv.lvl_src node hnode hsrc with h1 | h0
        · have h2 := h1.symm.trans hlv
          injection h2 with h2
          omega
        · have h2 := h0.symm.trans hlv
          injection h2 with h2
          omega
      subst hlvl1
      cases hio : st.index_of node with
      | none => rw [hio] at h; cases h
      | some i =>
        simp only [hio] at h
        cases hrow1 : st.layers[1]? with
        | none => rw [hrow1] at h; cases h
        | some row =>
          simp only [hrow1] at h
          split at h
          case isFalse => cases h
          case isTrue hilen =>
            set stMid : GState := { st with layers := st.layers.set 1 (row.eraseIdx i) }
              with hstMid
            have hmid0 : stMid.layers[0]? = st.layers[0]? := by
              simp [hstMid]
            cases hrow0 : stMid.layers[0]? with
            | none => simp only [hstMid] at h hrow0; rw [hrow0] at h; cases h
            | some row0 =>
              simp only [hstMid] at h hrow0
              simp only [hrow0] at h
              injection h with h
              have h0len : 0 < stMid.layers.length :=
                (List.getElem?_eq_some_iff.mp hrow0).1
              have hst1lvl : st1.level_of = mupd st.level_of node 0 := by rw [← h]
              have hst1get : ∀ L : Nat, st1.layers[L]? =
                  if L = 0 then some (row0 ++ [some node])
                  else if L = 1 then some (row.eraseIdx i)
                  else st.layers[L]? := by
                intro L
                rw [← h]
                by_cases hL0 : L = 0
                · subst hL0
                  simp only [if_pos rfl]
                  exact List.getElem?_set_eq h0len
                · rw [List.getElem?_set_ne (fun hc => hL0 hc.symm), if_neg hL0]
                  by_cases hL1 : L = 1
                  · subst hL1
                    simp only [if_pos rfl]
                    exact List.getElem?_set_eq ((List.getElem?_eq_some_iff.mp hrow1).1)
                  · rw [List.getElem?_set_ne (fun hc => hL1 hc.symm), if_neg hL1]
              have hst0row : st.layers[0]? = some row0 := by rw [← hmid0]; exact hrow0
              refine ⟨⟨?_, ?_, ?_, ?_, ?_⟩, ?_, ?_, ?_⟩
              · intro L hL
                rw [hst1get, if_neg (by omega), if_neg (by omega)]
                exact hinv.high L hL
              · intro L r hL hr x hx
                rw [hst1get] at hr
                by_cases hL0 : L = 0
                · rw [if_pos hL0] at hr
                  injection hr with hr
                  subst hr
                  rcases List.mem_append.mp hx with hx0 | hxn
                  · exact hinv.low 0 row0 (by omega) hst0row x hx0
                  · simp at hxn
                    subst hxn
                    exact ⟨hnode, hsrc⟩
                · rw [if_neg hL0] at hr
                  have hL1 : L = 1 := by omega
                  rw [if_pos hL1] at hr
                  injection hr with hr
                  subst hr
                  exact hinv.low 1 row (by omega) hrow1 x (List.mem_of_mem_eraseIdx hx)
              · intro v hv
                rw [hst1lvl, mupd_other _ _ _ _ (fun hc => hv (by rw [hc]; exact hsrc))]
                exact hinv.lvl_keep v hv
              · intro u hu hus
                rw [hst1lvl]
                by_cases hue : u = node
                · subst hue
                  rw [mupd_self]
                  exact Or.inr rfl
                · rw [mupd_other _ _ _ _ hue]
                  exact hinv.lvl_src u hu hus
              · rw [← h]
                simp [hinv.len]
              · intro v hv
                rw [hst1lvl, mupd_other _ _ _ _ hv]
              · intro r0 hr0
                rw [hst0row] at hr0
                injection hr0 with hr0
                subst hr0
                refine ⟨row0 ++ [some node], by rw [hst1get]; rfl, ?_⟩
                intro s hs
                exact List.mem_append.mpr (Or.inl hs)
              · intro _ _
                refine ⟨⟨row0 ++ [some node], by rw [hst1get]; rfl, ?_⟩, ?_⟩
                · exact List.mem_append.mpr (Or.inr (by simp))
                · rw [hst1lvl, mupd_self]

/-- The whole fold of the roots-to-top pass: the invariant holds at the end,
and every source has been moved to row 0 with level 0. -/
theorem roots_fold (g : DiGraph) (st0 : GState) :
    ∀ (l : List Nat) (st st' : GState),
      (∀ v ∈ l, v < g.n) → l.Nodup →
      RootsInv g st0 st →
      (∀ u ∈ l, predecessors g u = [] → st.level_of u = some 1) →
      l.foldlM (roots_step g) st = some st' →
      RootsInv g st0 st' ∧
      (∀ u ∈ l, predecessors g u = [] →
        (∃ row0, st'.layers[0]? = some row0 ∧ some u ∈ row0) ∧
        st'.level_of u = some 0) := by
  intro l
  induction l with
  | nil =>
    intro st st' _ _ hinv _ h
    simp only [List.foldlM] at h
    injection h with h
    subst h
    exact ⟨hinv, fun u hu => absurd hu (by simp)⟩
  | cons hd tl ih =>
    intro st st' hlt hnd hinv hone h
    simp only [List.foldlM] at h
    cases hx : roots_step g st hd with
    | none => rw [hx] at h; cases h
    | some st1 =>
      rw [hx] at h
      obtain ⟨hinv1, hpres, hmono0, hself⟩ :=
        roots_step_inv g st0 st st1 hd (hlt hd (by simp)) hinv hx
      have hone1 : ∀ u ∈ tl, predecessors g u = [] → st1.level_of u = some 1 := by
        intro u hu hus
        rw [hpres u (fun hc => (List.nodup_cons.mp hnd).1 (hc ▸ hu))]
        exact hone u (by simp [hu]) hus
      obtain ⟨hinvf, hsrcf⟩ := ih st1 st' (fun v hv => hlt v (by simp [hv]))
        (List.nodup_cons.mp hnd).2 hinv1 hone1 h
      refine ⟨hinvf, ?_⟩
      intro u hu hus
      simp only [List.mem_cons] at hu
      rcases hu with hu | hu
      · subst hu
        obtain ⟨⟨row0, hrow0, hmem0⟩, hlvl0⟩ := hself hus (hone u (by simp) hus)
        -- the remaining steps keep row 0 growing and level 0 in place
        have hrest : ∀ (l2 : List Nat) (s s2 : GState),
            l2.foldlM (roots_step g) s = some s2 →
            (∀ v ∈ l2, v < g.n) →
            RootsInv g st0 s →
            (∃ r0, s.layers[0]? = some r0 ∧ some u ∈ r0) → s.level_of u = some 0 →
            (∃ r0, s2.layers[0]? = some r0 ∧ some u ∈ r0) ∧ s2.level_of u = some 0 := by
          intro l2
          induction l2 with
          | nil =>
            intro s s2 hh _ _ hr0 hl0
            simp only [List.foldlM] at hh
            injection hh with hh
            subst hh
            exact ⟨hr0, hl0⟩
          | cons hd2 tl2 ih2 =>
            intro s s2 hh hlt2 hinv2 hr0 hl0
            simp only [List.foldlM] at hh
            cases hx2 : roots_step g s hd2 with
            | none => rw [hx2] at hh; cases hh
            | some s1 =>
              rw [hx2] at hh
              obtain ⟨hinv2', hpres2, hmono2, -⟩ :=
                roots_step_inv g st0 s s1 hd2 (hlt2 hd2 (by simp)) hinv2 hx2
              obtain ⟨r0, hr0s, hr0m⟩ := hr0
              obtain ⟨r0', hr0s', hsub⟩ := hmono2 r0 hr0s
              have hl0' : s1.level_of u = some 0 := by
                by_cases hue : u = hd2
                · -- a vertex already at level 0 is skipped by its own step
                  subst hue
                  unfold roots_step at hx2
                  rw [hl0] at hx2
                  simp only at hx2
                  rw [if_neg (by simp)] at hx2
                  injection hx2 with hx2
                  rw [← hx2]
                  exact hl0
                · rw [hpres2 u hue]
                  exact hl0
              exact ih2 s1 s2 hh (fun v hv => hlt2 v (by simp [hv])) hinv2'
                ⟨r0', hr0s', hsub _ hr0m⟩ hl0'
        exact hrest tl st1 st' h (fun v hv => hlt v (by simp [hv])) hinv1
          ⟨row0, hrow0, hmem0⟩ hlvl0
      · exact hsrcf u hu hus

/-- A vertex sitting in one of the two top rows of a synchronized state with
all levels at least 1 is a source. -/
theorem low_row_source (g : DiGraph) (st0 : GState)
    (hE : ∀ e ∈ g.edges, e.1 < g.n ∧ e.2 < g.n)
    (hs : Sync g st0) (hm : Mono g st0)
    (hlvl1 : ∀ (v l : Nat), v < g.n → st0.level_of v = some l → 1 ≤ l) :
    ∀ (L : Nat) (row : List (Option Nat)), L ≤ 1 → st0.layers[L]? = some row →
      ∀ x : Nat, some x ∈ row → x < g.n ∧ predecessors g x = [] := by
  intro L row hL hrow x hx
  obtain ⟨j, hj⟩ := List.mem_iff_getElem?.mp hx
  obtain ⟨hxn, hxl, -⟩ := hs.slots L row j x hrow hj
  refine ⟨hxn, ?_⟩
  by_cases hp : predecessors g x = []
  · exact hp
  · exfalso
    obtain ⟨p, hpmem⟩ := List.exists_mem_of_ne_nil _ hp
    have hpe : (p, x) ∈ g.edges := (mem_predecessors g p x).mp hpmem
    have hpn : p < g.n := (hE (p, x) hpe).1
    obtain ⟨lp, ip, hlp, -⟩ := hs.total p hpn
    have h1 := hm p x hpe lp L hlp hxl
    have h2 := hlvl1 p lp hpn hlp
    have h3 := hlvl1 x L hxn hxl
    omega

/-- After a successful roots-to-top fold started from a synchronized,
monotone state whose sources all sit at level 1, the occupancy is still
ordered along every edge and the final levels are still monotone. -/
theorem roots_pass_ordered (g : DiGraph) (st0 st' : GState)
    (hE : ∀ e ∈ g.edges, e.1 < g.n ∧ e.2 < g.n)
    (hs : Sync g st0) (hm : Mono g st0)
    (hlvl1 : ∀ (v l : Nat), v < g.n → st0.level_of v = some l → 1 ≤ l)
    (hsrc1 : ∀ u, u < g.n → predecessors g u = [] → st0.level_of u = some 1)
    (h : (List.range g.n).foldlM (roots_step g) st0 = some st') :
    OrderedOcc g st' ∧ Mono g st' ∧ (∀ w, w < g.n → ∃ l : Nat, st'.level_of w = some l) := by
  have hinv0 : RootsInv g st0 st0 :=
    ⟨fun _ _ => rfl, low_row_source g st0 hE hs hm hlvl1,
     fun _ _ => rfl, fun u hu hus => Or.inl (hsrc1 u hu hus), rfl⟩
  obtain ⟨hinvf, hsrcf⟩ := roots_fold g st0 (List.range g.n) st0 st'
    (fun v hv => List.mem_range.mp hv) (List.nodup_range _) hinv0
    (fun u hu hus => hsrc1 u (List.mem_range.mp hu) hus) h
  -- entry occurrence data along an edge
  have hedge_data : ∀ u v, (u, v) ∈ g.edges →
      ∃ lu lv rowu rowv, st0.level_of u = some lu ∧ st0.level_of v = some lv ∧
        lu < lv ∧ 1 ≤ lu ∧ 2 ≤ lv ∧
        st0.layers[lu]? = some rowu ∧ some u ∈ rowu ∧
        st0.layers[lv]? = some rowv ∧ some v ∈ rowv := by
    intro u v he
    obtain ⟨hu, hv⟩ := hE (u, v) he
    obtain ⟨lu, iu, hlu, hiu⟩ := hs.total u hu
    obtain ⟨rowu, hru, hslotu⟩ := hs.at_pos u lu iu hu hlu hiu
    obtain ⟨lv, iv, hlv, hiv⟩ := hs.total v hv
    obtain ⟨rowv, hrv, hslotv⟩ := hs.at_pos v lv iv hv hlv hiv
    have hlt := hm u v he lu lv hlu hlv
    have h1 := hlvl1 u lu hu hlu
    exact ⟨lu, lv, rowu, rowv, hlu, hlv, hlt, h1, by omega, hru,
      List.mem_iff_getElem?.mpr ⟨iu, hslotu⟩, hrv, List.mem_iff_getElem?.mpr ⟨iv, hslotv⟩⟩
  -- a slot of the final state in a row of index at least 2 is an entry slot
  have hhigh_slot : ∀ (L : Nat) (r : List (Option Nat)) (x : Nat), 2 ≤ L →
      st'.layers[L]? = some r → some x ∈ r → st0.level_of x = some L := by
    intro L r x hL hr hx
    rw [hinvf.high L hL] at hr
    obtain ⟨j, hj⟩ := List.mem_iff_getElem?.mp hx
    exact (hs.slots L r j x hr hj).2.1
  have hvns : ∀ u v, (u, v) ∈ g.edges → ¬ predecessors g v = [] := by
    intro u v he hc
    have : u ∈ predecessors g v := (mem_predecessors g u v).mpr he
    rw [hc] at this
    cases this
  refine ⟨?_, ?_, ?_⟩
  · -- ordered occupancy
    intro u v he
    obtain ⟨lu, lv, rowu, rowv, hlu, hlv, hlt, hlu1, hlv2, hru, hmu, hrv, hmv⟩ :=
      hedge_data u v he
    have hvrow : st'.layers[lv]? = some rowv := by
      rw [hinvf.high lv (by omega)]
      exact hrv
    refine ⟨?_, ⟨lv, rowv, hvrow, hmv⟩, ?_⟩
    · by_cases hup : predecessors g u = []
      · obtain ⟨⟨row0, hrow0, hmem0⟩, -⟩ :=
          hsrcf u (List.mem_range.mpr (hE (u, v) he).1) hup
        exact ⟨0, row0, hrow0, hmem0⟩
      · have hlu2 : 2 ≤ lu := by
          obtain ⟨p, hpmem⟩ := List.exists_mem_of_ne_nil _ hup
          have hpe : (p, u) ∈ g.edges := (mem_predecessors g p u).mp hpmem
          obtain ⟨lp, ip, hlp, -⟩ := hs.total p (hE (p, u) hpe).1
          have := hm p u hpe lp lu hlp hlu
          have := hlvl1 p lp (hE (p, u) hpe).1 hlp
          omega
        refine ⟨lu, rowu, ?_, hmu⟩
        rw [hinvf.high lu hlu2]
        exact hru
    · intro Lu Lv ru rv hruL hmuL hrvL hmvL
      have hLv2 : 2 ≤ Lv := by
        by_cases hLv : Lv ≤ 1
        · exact absurd (hinvf.low Lv rv hLv hrvL v hmvL).2 (hvns u v he)
        · omega
      have hlveq : Lv = lv := by
        have := hhigh_slot Lv rv v hLv2 hrvL hmvL
        rw [hlv] at this
        injection this with this
        omega
      by_cases hLu : Lu ≤ 1
      · omega
      · have hLu2 : 2 ≤ Lu := by omega
        have hlueq : Lu = lu := by
          have := hhigh_slot Lu ru u hLu2 hruL hmuL
          rw [hlu] at this
          injection this with this
          omega
        omega
  · -- final levels stay monotone
    intro a b he la lb hla hlb
    have hbns : ¬ predecessors g b = [] := hvns a b he
    have hlb0 : st'.level_of b = st0.level_of b := hinvf.lvl_keep b hbns
    rw [hlb0] at hlb
    have hlb1 := hlvl1 b lb (hE (a, b) he).2 hlb
    by_cases hap : predecessors g a = []
    · obtain ⟨-, hla0⟩ := hsrcf a (List.mem_range.mpr (hE (a, b) he).1) hap
      rw [hla0] at hla
      injection hla with hla
      omega
    · have hla0 : st'.level_of a = st0.level_of a := hinvf.lvl_keep a hap
      rw [hla0] at hla
      exact hm a b he la lb hla hlb
  · -- totality of the final levels
    intro w hw
    by_cases hwp : predecessors g w = []
    · rcases hinvf.lvl_src w hw hwp with h1 | h0
      · exact ⟨1, h1⟩
      · exact ⟨0, h0⟩
    · rw [hinvf.lvl_keep w hwp]
      obtain ⟨l, i, hl, -⟩ := hs.total w hw
      exact ⟨l, hl⟩

/-- Monotonicity only depends on `level_of`. -/
theorem mono_of_level_eq (g : DiGraph) (st st' : GState)
    (h : st'.level_of = st.level_of) (hm : Mono g st) : Mono g st' := by
  intro u v he lu lv hu hv
  rw [h] at hu hv
  exact hm u v he lu lv hu hv

/-- End-to-end: a successful `align_nodes` run leaves an ordered occupancy
and monotone levels, whichever value the roots-to-top flag has. -/
theorem align_nodes_ordered (g : DiGraph) (flag : Bool) (st' : GState)
    (hE : ∀ e ∈ g.edges, e.1 < g.n ∧ e.2 < g.n)
    (h : align_nodes g flag = some st') :
    OrderedOcc g st' ∧ Mono g st' ∧ (∀ w, w < g.n → ∃ l : Nat, st'.level_of w = some l) := by
  unfold align_nodes at h
  split at h
  next hn0 =>
    injection h with h
    subst h
    refine ⟨?_, ?_, ?_⟩
    · intro u v he
      exact absurd (hE (u, v) he).1 (by omega)
    · intro u v he
      exact absurd (hE (u, v) he).1 (by omega)
    · intro w hw
      omega
  next hn0 =>
  cases hord : toposortModel g with
  | none => rw [hord] at h; cases h
  | some ord =>
  simp only [hord] at h
  obtain ⟨hnd, hmemiff, hto⟩ := toposortModel_spec g hE ord hord
  obtain ⟨hgA, hmA⟩ := arrange_phaseA g ord hE hnd hto (fun v => hmemiff v)
  cases hB : (List.range g.n).reverse.foldlM
      (fun s v => move_node_in_level g s v .outgoing)
      (arrange_nodes_in_levels g initState ord) with
  | none => rw [hB] at h; cases h
  | some stB =>
  simp only [hB] at h
  obtain ⟨⟨hgB, hmB⟩, -⟩ := phase_fold_grid g .outgoing (List.range g.n).reverse
    (arrange_nodes_in_levels g initState ord) stB
    (fun v hv => List.mem_range.mp (List.mem_reverse.mp hv)) hgA hmA hB
  cases hC : (List.range g.n).foldlM (fun s v => move_node_in_level g s v .incoming) stB with
  | none => rw [hC] at h; cases h
  | some stC =>
  simp only [hC] at h
  obtain ⟨⟨hgC, hmC⟩, -⟩ := phase_fold_grid g .incoming (List.range g.n) stB stC
    (fun v hv => List.mem_range.mp hv) hgB hmB hC
  have hsrcC : ∀ u, u < g.n → predecessors g u = [] → stC.level_of u = some 1 :=
    fun u hu hus => phaseC_sources g (List.range g.n) stB stC
      (fun v hv => List.mem_range.mp hv) (List.nodup_range _) hgB hmB hC
      u (List.mem_range.mpr hu) hus
  cases hK : center_levels stC with
  | none => rw [hK] at h; cases h
  | some stK =>
  simp only [hK] at h
  obtain ⟨hgK, hlK⟩ := center_levels_grid g stC stK hgC hK
  have hmK : Mono g stK := mono_of_level_eq g stC stK hlK hmC
  have hsrcK : ∀ u, u < g.n → predecessors g u = [] → stK.level_of u = some 1 := by
    intro u hu hus
    rw [hlK]
    exact hsrcC u hu hus
  obtain ⟨hsF, hlF, hlayF⟩ := fill_index_sync g stK hgK
  have hmF : Mono g (fill_index stK) := mono_of_level_eq g stK _ hlF hmK
  have hlvl1F : ∀ (v l : Nat), v < g.n → (fill_index stK).level_of v = some l → 1 ≤ l := by
    intro v l hvn hv
    rw [hlF] at hv
    exact (hgK.pos v l hvn hv).1
  have hsrcF : ∀ u, u < g.n → predecessors g u = [] →
      (fill_index stK).level_of u = some 1 := by
    intro u hu hus
    rw [hlF]
    exact hsrcK u hu hus
  cases hR : refine_loop g 10 (fill_index stK) with
  | none => rw [hR] at h; cases h
  | some stR =>
  simp only [hR] at h
  obtain ⟨hsR, hlR⟩ := refine_loop_sync g 10 (fill_index stK) stR hsF hR
  have hmR : Mono g stR := mono_of_level_eq g _ stR hlR hmF
  have hlvl1R : ∀ (v l : Nat), v < g.n → stR.level_of v = some l → 1 ≤ l := by
    intro v l hvn hv
    rw [hlR] at hv
    exact hlvl1F v l hvn hv
  have hsrcR : ∀ u, u < g.n → predecessors g u = [] → stR.level_of u = some 1 := by
    intro u hu hus
    rw [hlR]
    exact hsrcF u hu hus
  split at h
  · -- roots-to-top flag set: run the post-pass
    unfold global_tasks_pass at h
    cases hF : (List.range g.n).foldlM (roots_step g) stR with
    | none => rw [hF] at h; cases h
    | some stf =>
      simp only [hF] at h
      cases hr0 : stf.layers[0]? with
      | none => rw [hr0] at h; cases h
      | some row0 =>
        simp only [hr0] at h
        injection h with h
        obtain ⟨hocc, hmono, htotf⟩ := roots_pass_ordered g stR stf hE hsR hmR hlvl1R hsrcR hF
        have hlay' : st'.layers = stf.layers := by rw [← h]
        have hlvl' : st'.level_of = stf.level_of := by rw [← h]
        refine ⟨?_, ?_, ?_⟩
        · intro u v he
          obtain ⟨⟨Lu, ru, hru, hmu⟩, ⟨Lv, rv, hrv, hmv⟩, hord2⟩ := hocc u v he
          refine ⟨⟨Lu, ru, by rw [hlay']; exact hru, hmu⟩,
                  ⟨Lv, rv, by rw [hlay']; exact hrv, hmv⟩, ?_⟩
          intro Lu2 Lv2 ru2 rv2 h1 h2 h3 h4
          rw [hlay'] at h1 h3
          exact hord2 Lu2 Lv2 ru2 rv2 h1 h2 h3 h4
        · exact mono_of_level_eq g stf st' hlvl' hmono
        · intro w hw
          rw [hlvl']
          exact htotf w hw
  · -- flag unset: the refined state is final
    injection h with h
    subst h
    refine ⟨sync_orderedOcc g stR hE hsR hmR, hmR, ?_⟩
    intro w hw
    obtain ⟨l, i, hl, -⟩ := hsR.total w hw
    exact ⟨l, hl⟩

/-- `HashMap::get` on the emitted position map. -/
def hm_find : List (Nat × Int × Int) → Nat → Option (Int × Int)
  | [], _ => none
  | (k, p) :: rest, k2 => if k = k2 then some p else hm_find rest k2

theorem hm_find_insert_self (l : List (Nat × Int × Int)) (k : Nat) (p : Int × Int) :
    hm_find (hm_insert l k p) k = some p := by
  induction l with
  | nil => simp [hm_insert, hm_find]
  | cons a rest ih =>
    obtain ⟨k1, p1⟩ := a
    by_cases hk : k1 = k
    · simp [hm_insert, hk, hm_find]
    · simp only [hm_insert, if_neg hk, hm_find]
      exact ih

theorem hm_find_insert_other (l : List (Nat × Int × Int)) (k k2 : Nat) (p : Int × Int)
    (h : ¬ k2 = k) : hm_find (hm_insert l k p) k2 = hm_find l k2 := by
  induction l with
  | nil =>
    simp only [hm_insert, hm_find]
    rw [if_neg (fun hc => h hc.symm)]
  | cons a rest ih =>
    obtain ⟨k1, p1⟩ := a
    by_cases hk : k1 = k
    · simp only [hm_insert, if_pos hk, hm_find]
      rw [if_neg (fun hc => h hc.symm), if_neg (by omega : ¬ k1 = k2)]
    · simp only [hm_insert, if_neg hk, hm_find]
      by_cases hk2 : k1 = k2
      · rw [if_pos hk2, if_pos hk2]
      · rw [if_neg hk2, if_neg hk2]
        exact ih

/-- Soundness of the row-emission fold: every binding read off the result
either was present before or describes an occupied slot of the row. -/
theorem hm_row_fold_sound (f : Nat → Int × Int) (P : Nat → Int × Int → Prop) :
    ∀ (row : List (Option Nat)) (k : Nat) (acc : List (Nat × Int × Int)),
      (∀ (v : Nat) (p : Int × Int), hm_find acc v = some p → P v p) →
      (∀ (j v : Nat), row[j]? = some (some v) → P v (f (k + j))) →
      ∀ (v : Nat) (p : Int × Int), hm_find ((row.enumFrom k).foldl (fun acc r =>
        match r.2 with
        | some node => hm_insert acc node (f r.1)
        | none => acc) acc) v = some p → P v p := by
  intro row
  induction row with
  | nil => intro k acc hacc _ v p hf; exact hacc v p hf
  | cons a rest ih =>
    intro k acc hacc hrow v p hf
    rw [List.enumFrom_cons, List.foldl_cons] at hf
    cases a with
    | none =>
      exact ih (k + 1) acc hacc
        (fun j v2 hj => by
          have := hrow (j + 1) v2 (by rwa [List.getElem?_cons_succ])
          rwa [show k + (j + 1) = k + 1 + j by omega] at this) v p hf
    | some w =>
      refine ih (k + 1) (hm_insert acc w (f k)) ?_
        (fun j v2 hj => by
          have := hrow (j + 1) v2 (by rwa [List.getElem?_cons_succ])
          rwa [show k + (j + 1) = k + 1 + j by omega] at this) v p hf
      intro v2 p2 hf2
      by_cases hv2 : v2 = w
      · subst hv2
        rw [hm_find_insert_self] at hf2
        injection hf2 with hf2
        subst hf2
        have := hrow 0 v2 (by rw [List.getElem?_cons_zero])
        rwa [show k + 0 = k by omega] at this
      · rw [hm_find_insert_other _ _ _ _ hv2] at hf2
        exact hacc v2 p2 hf2

/-- Completeness of the row-emission fold: a vertex of the row, or one
already bound, is bound in the result. -/
theorem hm_row_fold_mem (f : Nat → Int × Int) :
    ∀ (row : List (Option Nat)) (k : Nat) (acc : List (Nat × Int × Int)) (v : Nat),
      (some v ∈ row ∨ (hm_find acc v).isSome) →
      (hm_find ((row.enumFrom k).foldl (fun acc r =>
        match r.2 with
        | some node => hm_insert acc node (f r.1)
        | none => acc) acc) v).isSome := by
  intro row
  induction row with
  | nil =>
    intro k acc v hv
    rcases hv with hv | hv
    · cases hv
    · exact hv
  | cons a rest ih =>
    intro k acc v hv
    rw [List.enumFrom_cons, List.foldl_cons]
    cases a with
    | none =>
      refine ih (k + 1) acc v ?_
      rcases hv with hv | hv
      · rcases List.mem_cons.mp hv with hv | hv
        · cases hv
        · exact Or.inl hv
      · exact Or.inr hv
    | some w =>
      refine ih (k + 1) (hm_insert acc w (f k)) v ?_
      rcases hv with hv | hv
      · rcases List.mem_cons.mp hv with hv | hv
        · injection hv with hv
          subst hv
          exact Or.inr (by rw [hm_find_insert_self]; rfl)
        · exact Or.inl hv
      · by_cases hvw : v = w
        · subst hvw
          exact Or.inr (by rw [hm_find_insert_self]; rfl)
        · exact Or.inr (by rwa [hm_find_insert_other _ _ _ _ hvw])

/-- Soundness of the grid-emission fold. -/
theorem hm_layers_fold_sound (F : Nat → Nat → Int × Int) (P : Nat → Int × Int → Prop) :
    ∀ (pairs : List (Nat × List (Option Nat))) (acc : List (Nat × Int × Int)),
      (∀ (v : Nat) (p : Int × Int), hm_find acc v = some p → P v p) →
      (∀ (L : Nat) (row : List (Option Nat)), (L, row) ∈ pairs →
        ∀ (j v : Nat), row[j]? = some (some v) → P v (F L j)) →
      ∀ (v : Nat) (p : Int × Int), hm_find (pairs.foldl (fun acc q =>
        (q.2.enum.foldl (fun acc r =>
          match r.2 with
          | some node => hm_insert acc node (F q.1 r.1)
          | none => acc) acc)) acc) v = some p → P v p := by
  intro pairs
  induction pairs with
  | nil => intro acc hacc _ v p hf; exact hacc v p hf
  | cons q rest ih =>
    intro acc hacc hrows v p hf
    rw [List.foldl_cons] at hf
    refine ih _ ?_ (fun L row hLr => hrows L row (List.mem_cons.mpr (Or.inr hLr))) v p hf
    intro v2 p2 hf2
    refine hm_row_fold_sound (F q.1) P q.2 0 acc hacc ?_ v2 p2 hf2
    intro j v3 hj
    rw [Nat.zero_add]
    exact hrows q.1 q.2 (List.mem_cons.mpr (Or.inl rfl)) j v3 hj

/-- Completeness of the grid-emission fold. -/
theorem hm_layers_fold_mem (F : Nat → Nat → Int × Int) :
    ∀ (pairs : List (Nat × List (Option Nat))) (acc : List (Nat × Int × Int)) (v : Nat),
      ((∃ (L : Nat) (row : List (Option Nat)), (L, row) ∈ pairs ∧ some v ∈ row) ∨
        (hm_find acc v).isSome) →
      (hm_find (pairs.foldl (fun acc q =>
        (q.2.enum.foldl (fun acc r =>
          match r.2 with
          | some node => hm_insert acc node (F q.1 r.1)
          | none => acc) acc)) acc) v).isSome := by
  intro pairs
  induction pairs with
  | nil =>
    intro acc v hv
    rcases hv with ⟨L, row, hmem, -⟩ | hv
    · cases hmem
    · exact hv
  | cons q rest ih =>
    intro acc v hv
    rw [List.foldl_cons]
    rcases hv with ⟨L, row, hmem, hvrow⟩ | hv
    · rcases List.mem_cons.mp hmem with hq | hrest
      · refine ih _ v (Or.inr ?_)
        have hq2 : q.2 = row := by rw [← hq]
        exact hm_row_fold_mem (F q.1) q.2 0 acc v (Or.inl (by rw [hq2]; exact hvrow))
      · exact ih _ v (Or.inl ⟨L, row, hrest, hvrow⟩)
    · exact ih _ v (Or.inr (hm_row_fold_mem (F q.1) q.2 0 acc v (Or.inr hv)))

/-- `build_layout` on an ordered occupancy emits strictly decreasing `y`
values along every edge (the tail is drawn above the head). -/
theorem build_layout_mono (g : DiGraph) (st : GState) (sep : Int)
    (layout : List (Nat × Int × Int)) (w hgt : Nat)
    (hocc : OrderedOcc g st) (hsep : 0 < sep)
    (h : build_layout st sep = some (layout, w, hgt)) :
    ∀ u v, (u, v) ∈ g.edges →
      ∃ xu yu xv yv, hm_find layout u = some (xu, yu) ∧
        hm_find layout v = some (xv, yv) ∧ yv < yu := by
  unfold build_layout at h
  cases hr0 : st.layers[0]? with
  | none => rw [hr0] at h; cases h
  | some row0 =>
    simp only [hr0] at h
    injection h with h
    rw [Prod.mk.injEq, Prod.mk.injEq] at h
    obtain ⟨h1, -, -⟩ := h
    set off : Int := if row0.all (fun s => s.isNone) then 1 else 0 with hoff
    intro u v he
    obtain ⟨⟨Lu, ru, hru, hmu⟩, ⟨Lv, rv, hrv, hmv⟩, hord⟩ := hocc u v he
    have hsound := hm_layers_fold_sound
      (fun L i => ((i : Int) * sep, (-(L : Int) + off) * sep))
      (fun x p => ∃ (L j : Nat) (row : List (Option Nat)),
        st.layers[L]? = some row ∧ row[j]? = some (some x) ∧
        p = ((j : Int) * sep, (-(L : Int) + off) * sep))
      st.layers.enum []
      (fun x p hf => by cases hf)
      (fun L row hLr j x hj =>
        ⟨L, j, row, List.mem_enum_iff_getElem?.mp hLr, hj, rfl⟩)
    have humem := hm_layers_fold_mem
      (fun L i => ((i : Int) * sep, (-(L : Int) + off) * sep))
      st.layers.enum [] u
      (Or.inl ⟨Lu, ru, List.mem_enum_iff_getElem?.mpr hru, hmu⟩)
    have hvmem := hm_layers_fold_mem
      (fun L i => ((i : Int) * sep, (-(L : Int) + off) * sep))
      st.layers.enum [] v
      (Or.inl ⟨Lv, rv, List.mem_enum_iff_getElem?.mpr hrv, hmv⟩)
    rw [h1] at humem hvmem
    obtain ⟨pu, hpu⟩ := Option.isSome_iff_exists.mp humem
    obtain ⟨pv, hpv⟩ := Option.isSome_iff_exists.mp hvmem
    obtain ⟨Lu2, ju, ru2, hru2, hju, hpu2⟩ := hsound u pu (by rw [h1]; exact hpu)
    obtain ⟨Lv2, jv, rv2, hrv2, hjv, hpv2⟩ := hsound v pv (by rw [h1]; exact hpv)
    have hlt : Lu2 < Lv2 := hord Lu2 Lv2 ru2 rv2 hru2
      (List.mem_iff_getElem?.mpr ⟨ju, hju⟩) hrv2 (List.mem_iff_getElem?.mpr ⟨jv, hjv⟩)
    refine ⟨pu.1, pu.2, pv.1, pv.2, by rw [hpu], by rw [hpv], ?_⟩
    rw [hpu2, hpv2]
    have hyy : (-(Lv2 : Int) + off) < (-(Lu2 : Int) + off) := by omega
    exact mul_lt_mul_of_pos_right hyy hsep

/-- The stack traversal of the splitter: visited vertices and collected edges
only grow, every stacked vertex ends visited, and a newly visited vertex
contributes all its outgoing edges. -/
theorem wcc_expand_spec (g : DiGraph) :
    ∀ (fuel : Nat) (visited stack : List Nat) (acc : List (Nat × Nat))
      (visited' : List Nat) (acc' : List (Nat × Nat)),
      wcc_expand g fuel visited stack acc = some (visited', acc') →
      (∀ x ∈ visited, x ∈ visited') ∧
      (∀ e ∈ acc, e ∈ acc') ∧
      (∀ u ∈ stack, u ∈ visited') ∧
      (∀ u, u ∈ visited' → u ∉ visited → ∀ s ∈ successors g u, (u, s) ∈ acc') := by
  intro fuel
  induction fuel with
  | zero =>
    intro visited stack acc visited' acc' h
    simp only [wcc_expand] at h
    split at h
    next hempty =>
      injection h with h
      rw [Prod.mk.injEq] at h
      obtain ⟨h1, h2⟩ := h
      subst h1
      subst h2
      rw [List.isEmpty_iff] at hempty
      subst hempty
      exact ⟨fun x hx => hx, fun e he => he, fun u hu => absurd hu (by simp),
        fun u hu hnu => absurd hu hnu⟩
    next => cases h
  | succ n ih =>
    intro visited stack acc visited' acc' h
    cases stack with
    | nil =>
      simp only [wcc_expand] at h
      injection h with h
      rw [Prod.mk.injEq] at h
      obtain ⟨h1, h2⟩ := h
      subst h1
      subst h2
      exact ⟨fun x hx => hx, fun e he => he, fun u hu => absurd hu (by simp),
        fun u hu hnu => absurd hu hnu⟩
    | cons source rest =>
      simp only [wcc_expand] at h
      split at h
      next hvis =>
        obtain ⟨hv, ha, hst, hnew⟩ := ih visited rest acc visited' acc' h
        refine ⟨hv, ha, ?_, hnew⟩
        intro u hu
        rcases List.mem_cons.mp hu with hu | hu
        · subst hu
          refine hv u ?_
          simpa using hvis
        · exact hst u hu
      next hvis =>
        obtain ⟨hv, ha, hst, hnew⟩ := ih (source :: visited)
          ((successors g source).reverse ++ rest)
          (acc ++ (successors g source).map (fun s => (source, s))) visited' acc' h
        refine ⟨?_, ?_, ?_, ?_⟩
        · intro x hx
          exact hv x (List.mem_cons.mpr (Or.inr hx))
        · intro e hee
          exact ha e (List.mem_append.mpr (Or.inl hee))
        · intro u hu
          rcases List.mem_cons.mp hu with hu | hu
          · subst hu
            exact hv u (List.mem_cons.mpr (Or.inl rfl))
          · exact hst u (List.mem_append.mpr (Or.inr hu))
        · intro u hu hnu hs2 hmem
          by_cases hus : u = source
          · subst hus
            exact ha (u, hs2) (List.mem_append.mpr (Or.inr
              (List.mem_map.mpr ⟨hs2, hmem, rfl⟩)))
          · refine hnew u hu ?_ hs2 hmem
            intro hc
            rcases List.mem_cons.mp hc with hc | hc
            · exact hus hc
            · exact hnu hc

/-- The splitter's seed fold: every processed seed ends visited, and every
visited vertex has all its outgoing edges inside some kept component (whose
edge list it a `fromEdges` rebuild preserves). -/
theorem wcc_fold_spec (g : DiGraph) :
    ∀ (l : List Nat) (start : List Nat × List DiGraph)
      (res : List Nat × List DiGraph),
      l.foldlM (fun (p : List Nat × List DiGraph) identifier =>
        match wcc_expand g (g.edges.length + 2) p.1 [identifier] [] with
        | none => none
        | some (visited2, subEdges) =>
          some (visited2,
            if 0 < subEdges.length then p.2 ++ [fromEdges subEdges] else p.2)) start
        = some res →
      (∀ u ∈ start.1, ∀ s ∈ successors g u, ∃ sub ∈ start.2, (u, s) ∈ sub.edges) →
      (∀ sub ∈ start.2, ∃ es, sub = fromEdges es) →
      (∀ u ∈ res.1, ∀ s ∈ successors g u, ∃ sub ∈ res.2, (u, s) ∈ sub.edges) ∧
      (∀ x ∈ start.1, x ∈ res.1) ∧ (∀ u ∈ l, u ∈ res.1) ∧
      (∀ sub ∈ res.2, ∃ es, sub = fromEdges es) := by
  intro l
  induction l with
  | nil =>
    intro start res h hstart hshape
    simp only [List.foldlM] at h
    injection h with h
    subst h
    exact ⟨hstart, fun x hx => hx, fun u hu => absurd hu (by simp), hshape⟩
  | cons hd tl ih =>
    intro start res h hstart hshape
    simp only [List.foldlM] at h
    cases hx : wcc_expand g (g.edges.length + 2) start.1 [hd] [] with
    | none => rw [hx] at h; cases h
    | some q =>
      simp only [hx] at h
      obtain ⟨hv, -, hst, hnew⟩ :=
        wcc_expand_spec g (g.edges.length + 2) start.1 [hd] [] q.1 q.2 (by rw [hx])
      set comps1 : List DiGraph :=
        if 0 < q.2.length then start.2 ++ [fromEdges q.2] else start.2 with hcomps1
      have hstart1 : ∀ u ∈ q.1, ∀ s ∈ successors g u,
          ∃ sub ∈ comps1, (u, s) ∈ sub.edges := by
        intro u hu s hsmem
        by_cases hold : u ∈ start.1
        · obtain ⟨sub, hsub, hesub⟩ := hstart u hold s hsmem
          refine ⟨sub, ?_, hesub⟩
          rw [hcomps1]
          split
          · exact List.mem_append.mpr (Or.inl hsub)
          · exact hsub
        · have hacc : (u, s) ∈ q.2 := hnew u hu hold s hsmem
          have hlen : 0 < q.2.length := List.length_pos.mpr (fun hc => by
            rw [hc] at hacc; cases hacc)
          refine ⟨fromEdges q.2, ?_, hacc⟩
          rw [hcomps1, if_pos hlen]
          exact List.mem_append.mpr (Or.inr (by simp))
      have hshape1 : ∀ sub ∈ comps1, ∃ es, sub = fromEdges es := by
        intro sub hsub
        rw [hcomps1] at hsub
        split at hsub
        · rcases List.mem_append.mp hsub with h1 | h2
          · exact hshape sub h1
          · simp at h2
            exact ⟨q.2, h2⟩
        · exact hshape sub hsub
      obtain ⟨hres, hkeep, htl, hcomps⟩ := ih (q.1, comps1) res h hstart1 hshape1
      refine ⟨hres, ?_, ?_, hcomps⟩
      · intro x hxm
        exact hkeep x (hv x hxm)
      · intro u hu
        rcases List.mem_cons.mp hu with hu | hu
        · subst hu
          exact hkeep u (hst u (by simp))
        · exact htl u hu

/-- Every input edge survives into (at least) one kept component, and every
component is a `fromEdges` rebuild, so its endpoints lie below its node
count. -/
theorem wcc_coverage (g : DiGraph)
    (hE : ∀ e ∈ g.edges, e.1 < g.n ∧ e.2 < g.n)
    (subs : List DiGraph)
    (h : into_weakly_connected_components g = some subs) :
    (∀ e ∈ g.edges, ∃ sub ∈ subs, e ∈ sub.edges) ∧
    (∀ sub ∈ subs, ∀ e ∈ sub.edges, e.1 < sub.n ∧ e.2 < sub.n) := by
  unfold into_weakly_connected_components at h
  cases hord : toposortModel g with
  | none => rw [hord] at h; cases h
  | some ord =>
    simp only [hord] at h
    obtain ⟨-, hmemiff, -⟩ := toposortModel_spec g hE ord hord
    cases hfold : ord.foldlM (fun (p : List Nat × List DiGraph) identifier =>
        match wcc_expand g (g.edges.length + 2) p.1 [identifier] [] with
        | none => none
        | some (visited2, subEdges) =>
          some (visited2,
            if 0 < subEdges.length then p.2 ++ [fromEdges subEdges] else p.2))
        ([], []) with
    | none => rw [hfold] at h; cases h
    | some res =>
      simp only [hfold] at h
      injection h with h
      obtain ⟨hres, -, hall, hshapes⟩ := wcc_fold_spec g ord ([], []) res hfold
        (fun u hu => absurd hu (by simp)) (fun sub hs => absurd hs (by simp))
      constructor
      · intro e he
        have hu : e.1 ∈ res.1 := hall e.1 ((hmemiff e.1).mpr (hE e he).1)
        have hsucc : e.2 ∈ successors g e.1 := (mem_successors g e.2 e.1).mpr (by
          obtain ⟨a, b⟩ := e
          exact he)
        obtain ⟨sub, hsub, hesub⟩ := hres e.1 hu e.2 hsucc
        refine ⟨sub, by rw [← h]; exact hsub, ?_⟩
        obtain ⟨a, b⟩ := e
        exact hesub
      · intro sub hsub e hesub
        obtain ⟨es, hes⟩ := hshapes sub (by rw [← h] at hsub; exact hsub)
        subst hes
        exact fromEdges_edge_lt es e hesub

/-- Pointwise reading of a successful `mapM`. -/
theorem mapM_nth {α β : Type} (f : α → Option β) :
    ∀ (l : List α) (l2 : List β), l.mapM f = some l2 →
      l2.length = l.length ∧ ∀ (i : Nat) (a : α), l[i]? = some a →
        ∃ b, l2[i]? = some b ∧ f a = some b := by
  intro l
  induction l with
  | nil =>
    intro l2 h
    simp only [List.mapM_nil] at h
    injection h with h
    subst h
    exact ⟨rfl, fun i a ha => by simp at ha⟩
  | cons hd tl ih =>
    intro l2 h
    rw [List.mapM_cons] at h
    cases hf : f hd with
    | none => rw [hf] at h; cases h
    | some b =>
      rw [hf] at h
      cases hmt : tl.mapM f with
      | none => rw [hmt] at h; cases h
      | some bs =>
        rw [hmt] at h
        injection h with h
        subst h
        obtain ⟨hlen, hnth⟩ := ih bs hmt
        refine ⟨by simp [hlen], ?_⟩
        intro i a ha
        cases i with
        | zero =>
          rw [List.getElem?_cons_zero] at ha
          injection ha with ha
          subst ha
          exact ⟨b, by rw [List.getElem?_cons_zero], hf⟩
        | succ j =>
          rw [List.getElem?_cons_succ] at ha
          obtain ⟨b2, hb2, hfb2⟩ := hnth j a ha
          exact ⟨b2, by rwa [List.getElem?_cons_succ], hfb2⟩

/-- C1 (amended): in every successful `create_layers` call with a positive
vertex size, every input edge `(u, v)` is carried by at least one returned
component, and in every returned component whose edge set contains the edge,
the final level of `u` is strictly smaller than the final level of `v` and
the emitted `y` of `u` is strictly greater than the emitted `y` of `v`.
(Vertices duplicated into foreign components — see C3 — may tie or invert
there, which refutes the claim's unqualified reading.) -/
theorem c1_edge_orders (edges : List (Nat × Nat)) (node_size : Int) (flag : Bool)
    (layouts : List (List (Nat × Int × Int) × Nat × Nat))
    (hrun : create_layers edges node_size flag = some layouts)
    (hsize : 0 < node_size) :
    ∀ u v, (u, v) ∈ edges →
      ∃ subs, into_weakly_connected_components (fromEdges edges) = some subs ∧
        layouts.length = subs.length ∧
        (∃ (i : Nat) (sub : DiGraph), subs[i]? = some sub ∧ (u, v) ∈ sub.edges) ∧
        (∀ (i : Nat) (sub : DiGraph) (lay : List (Nat × Int × Int) × Nat × Nat),
          subs[i]? = some sub → layouts[i]? = some lay → (u, v) ∈ sub.edges →
          (∃ (stf : GState) (lu lv : Nat), align_nodes sub flag = some stf ∧
            stf.level_of u = some lu ∧ stf.level_of v = some lv ∧ lu < lv) ∧
          (∃ xu yu xv yv, hm_find lay.1 u = some (xu, yu) ∧
            hm_find lay.1 v = some (xv, yv) ∧ yv < yu)) := by
  simp only [create_layers] at hrun
  cases hw : into_weakly_connected_components (fromEdges edges) with
  | none => rw [hw] at hrun; cases hrun
  | some subs =>
  simp only [hw] at hrun
  cases hmapA : subs.mapM (fun sg => align_nodes sg flag) with
  | none => rw [hmapA] at hrun; cases hrun
  | some states =>
  simp only [hmapA] at hrun
  obtain ⟨hlenA, hnthA⟩ := mapM_nth _ subs states hmapA
  obtain ⟨hlenB, hnthB⟩ := mapM_nth _ states layouts hrun
  have hEg : ∀ e ∈ (fromEdges edges).edges,
      e.1 < (fromEdges edges).n ∧ e.2 < (fromEdges edges).n :=
    fromEdges_edge_lt edges
  obtain ⟨hcov, hsubE⟩ := wcc_coverage (fromEdges edges) hEg subs hw
  intro u v he
  obtain ⟨sub0, hsub0, hesub0⟩ := hcov (u, v) he
  obtain ⟨i0, hi0⟩ := List.mem_iff_getElem?.mp hsub0
  refine ⟨subs, rfl, by omega, ⟨i0, sub0, hi0, hesub0⟩, ?_⟩
  intro i sub lay hsubi hlayi hesub
  obtain ⟨stf, hstfi, halign⟩ := hnthA i sub hsubi
  obtain ⟨lay2, hlay2, hbuild⟩ := hnthB i stf hstfi
  have hlayeq : lay = lay2 := by
    rw [hlayi] at hlay2
    injection hlay2 with h
  rw [← hlayeq] at hbuild
  have hEsub : ∀ e ∈ sub.edges, e.1 < sub.n ∧ e.2 < sub.n :=
    hsubE sub (List.mem_iff_getElem?.mpr ⟨i, hsubi⟩)
  obtain ⟨hocc, hmono, htot⟩ := align_nodes_ordered sub flag stf hEsub halign
  obtain ⟨hun, hvn⟩ := hEsub (u, v) hesub
  obtain ⟨lu, hlu⟩ := htot u hun
  obtain ⟨lv, hlv⟩ := htot v hvn
  refine ⟨⟨stf, lu, lv, halign, hlu, hlv, hmono u v hesub lu lv hlu hlv⟩, ?_⟩
  have hsep : (0 : Int) < node_size * 4 := by omega
  exact build_layout_mono sub stf (node_size * 4) lay.1 lay.2.1 lay.2.2 hocc hsep
    hbuild u v hesub

/-- C1, witness: the amended ordering evaluated on the single edge `0 → 1`
with vertex size 40 and the roots flag off. -/
theorem c1_edge_orders_witness :
    create_layers [(0, 1)] 40 false = some [([(0, 160, 0), (1, 160, -160)], 1, 5)] ∧
    (0 : Int) < 40 ∧
    (((0 : Nat), (1 : Nat)) ∈ [((0 : Nat), (1 : Nat))]) ∧
    (∃ subs, into_weakly_connected_components (fromEdges [(0, 1)]) = some subs ∧
      [([(0, 160, 0), (1, 160, -160)], 1, 5)].length = subs.length ∧
      (∃ (i : Nat) (sub : DiGraph), subs[i]? = some sub ∧ ((0 : Nat), (1 : Nat)) ∈ sub.edges) ∧
      (∀ (i : Nat) (sub : DiGraph) (lay : List (Nat × Int × Int) × Nat × Nat),
        subs[i]? = some sub → [([(0, 160, 0), (1, 160, -160)], 1, 5)][i]? = some lay →
        ((0 : Nat), (1 : Nat)) ∈ sub.edges →
        (∃ (stf : GState) (lu lv : Nat), align_nodes sub false = some stf ∧
          stf.level_of 0 = some lu ∧ stf.level_of 1 = some lv ∧ lu < lv) ∧
        (∃ xu yu xv yv, hm_find lay.1 0 = some (xu, yu) ∧
          hm_find lay.1 1 = some (xv, yv) ∧ yv < yu))) :=
  ⟨rfl, by decide, by simp,
    c1_edge_orders [(0, 1)] 40 false [([(0, 160, 0), (1, 160, -160)], 1, 5)] (by rfl)
      (by decide) 0 1 (by simp)⟩

/-- C1, counterexample to the claim's unqualified reading: on the input
`{(1, 2), (0, 3)}` the splitter's first component is rebuilt with phantom
copies of vertices 1 and 2 (compare C3); in its returned mapping both
endpoints of the input edge `(1, 2)` come out with the same `y` value 0, so
the `y` of the edge's tail is not strictly greater than the `y` of its head
in that mapping. -/
theorem c1_counterexample :
    (((1 : Nat), (2 : Nat)) ∈ [((1 : Nat), (2 : Nat)), (0, 3)]) ∧
    create_layers [(1, 2), (0, 3)] 40 false =
      some [([(0, 160, 0), (1, 320, 0), (2, 480, 0), (3, 160, -160)], 3, 5),
            ([(0, 160, 0), (1, 320, 0), (2, 320, -160)], 2, 5)] ∧
    hm_find [(0, 160, 0), (1, 320, 0), (2, 480, 0), (3, 160, -160)] 1 = some (320, 0) ∧
    hm_find [(0, 160, 0), (1, 320, 0), (2, 480, 0), (3, 160, -160)] 2 = some (480, 0) ∧
    ¬ ((0 : Int) < 0) := by
  refine ⟨by simp, by rfl, by rfl, by rfl, by omega⟩

end RSGL
